import Mathlib

/-!
Verification of the micrograd scalar reverse-mode autodiff engine
(`micrograd/value.py`, `micrograd/mlp.py`).

The computation graph is embedded shallowly: every `Value` object created by
the Python code is identified with a natural-number id equal to its creation
rank, so the operand ("children") references of a node always point to
strictly smaller ids.  A graph is a list of nodes together with that
well-formedness fact.  Python float arithmetic is modelled by real arithmetic.

Each node stores, exactly as the Python class does,
  * `val` : the scalar value,
  * `label` : the optional string label,
  * `children` : the operand set (a Python `set`, hence deduplicated; it is
    kept here as the duplicate-free list `[a] / [a, b]`),
  * `op` : the operation tag (`None` for leaves),
  * `rule` : the data captured by the `backward` closure installed by the
    operation builder (operand ids, output id, and the scalar exponent or the
    precomputed activation value where the closure captures one).

Recursive graph traversals (`build_topo`, reachability, `recompute`,
`get_descendants`, path enumeration) are defined by structural recursion on a
fuel argument; since every child id is strictly smaller than its parent's id,
fuel equal to the starting id is always sufficient, and the wrappers below
supply it, so the fuelled functions agree with the unbounded Python recursion
on every (necessarily acyclic) constructible graph.
-/

/-- Operation tags: the Python literal type
`OP = Literal["add", "mul", "pow", "abs", "sigmoid", "tanh", "relu", "exp"]`. -/
inductive OpTag where
  | add | mul | pow | abs | sigmoid | tanh | relu | exp
  deriving DecidableEq, BEq, Repr

/-- The data captured by each `backward` closure bound at construction time:
the ids of the operand value(s) (`self`, `other`), the id of the output value
(`out`), and, where the Python closure captures a scalar (the exponent of
`__pow__`, the precomputed activation value `val` of `sigmoid`, `tanh`,
`relu`), that scalar. -/
inductive BackRule where
  | noneR : BackRule
  | addR (a b o : Nat) : BackRule
  | mulR (a b o : Nat) : BackRule
  | absR (a o : Nat) : BackRule
  | powR (a : Nat) (k : Real) (o : Nat) : BackRule
  | sigR (a : Nat) (v : Real) (o : Nat) : BackRule
  | tanhR (a : Nat) (v : Real) (o : Nat) : BackRule
  | reluR (a : Nat) (v : Real) (o : Nat) : BackRule
  | expR (a o : Nat) : BackRule

/-- One `Value` object: `val`, `label`, `children`, `op` and the installed
backward closure.  The mutable `grad` accumulator is kept outside the node,
as an explicit state `Nat → Real` threaded through the backward pass. -/
structure Node where
  val : Real
  label : Option String
  children : List Nat
  op : Option OpTag
  rule : BackRule

/-- The node a fresh id would denote before any constructor ran; ids outside
the constructed prefix behave as isolated leaves. -/
def dfltNode : Node := ⟨0, none, [], none, .noneR⟩

/-- A computation graph: the nodes in creation order, together with the fact
that operand references point to previously created values.  This is exactly
the acyclicity discipline of the Python code, where `children` can only hold
already-existing `Value` objects. -/
structure Graph where
  nodes : List Node
  wf : ∀ i j, j ∈ (nodes.getD i dfltNode).children → j < i

/-- Number of nodes created so far. -/
def Graph.size (g : Graph) : Nat := g.nodes.length

/-- The node with id `i` (a default isolated leaf when `i` is out of range). -/
def Graph.node (g : Graph) (i : Nat) : Node := g.nodes.getD i dfltNode

theorem Graph.children_lt (g : Graph) {i j : Nat}
    (h : j ∈ (g.node i).children) : j < i := g.wf i j h

theorem Graph.children_node_zero (g : Graph) : (g.node 0).children = [] := by
  apply List.eq_nil_iff_forall_not_mem.2
  intro j hj
  exact absurd (g.children_lt hj) (Nat.not_lt_zero j)

/-- Bounded, decidable form of the graph well-formedness condition, used to
build concrete graphs. -/
def listWF (ns : List Node) : Prop :=
  ∀ i < ns.length, ∀ j ∈ (ns.getD i dfltNode).children, j < i

instance (ns : List Node) : Decidable (listWF ns) := by
  unfold listWF; infer_instance

/-- Build a graph from a concrete node list whose (decidable) bounded
well-formedness check passes. -/
def Graph.ofList (ns : List Node) (h : listWF ns) : Graph :=
  ⟨ns, by
    intro i j hj
    by_cases hi : i < ns.length
    · exact h i hi j hj
    · rw [List.getD_eq_default] at hj
      · simp [dfltNode] at hj
      · exact Nat.le_of_not_lt hi⟩

theorem Graph.node_ofList (ns : List Node) (h : listWF ns) (i : Nat) :
    (Graph.ofList ns h).node i = ns.getD i dfltNode := rfl

/-!
## The depth-first post-order topological sort of `Value.backprop`

`build_topo(v)`: if `v` is unvisited, mark it visited, recurse into its
children, then append `v` to the post-order list.  The state is the pair
(visited list, post-order list).
-/

/-- Fuelled body of `build_topo`.  At fuel `0` the only possible argument with
in-range children is id `0`, whose child list is empty, so the fuel-exhausted
branch performs exactly the mark-and-append step the real recursion would. -/
def btAux (g : Graph) : Nat → Nat → List Nat × List Nat → List Nat × List Nat
  | 0, i, st =>
      if i ∈ st.1 then st else (i :: st.1, st.2 ++ [i])
  | fuel + 1, i, st =>
      if i ∈ st.1 then st
      else
        let st2 := (g.node i).children.foldl (fun s c => btAux g fuel c s) (i :: st.1, st.2)
        (st2.1, st2.2 ++ [i])

/-- `build_topo(root)` run from the empty state: returns (visited, topo). -/
def buildTopo (g : Graph) (root : Nat) : List Nat × List Nat :=
  btAux g root root ([], [])

/-- The forward topological order `topo` produced inside `Value.backprop`. -/
def topoList (g : Graph) (root : Nat) : List Nat := (buildTopo g root).2

/-!
## Reachability along operand references
-/

/-- Fuelled reachability: `rchAux g fuel i j` decides whether `j` can be
reached from `i` by repeatedly following `children` references. -/
def rchAux (g : Graph) : Nat → Nat → Nat → Bool
  | 0, i, j => i == j
  | fuel + 1, i, j => i == j || (g.node i).children.any (fun c => rchAux g fuel c j)

/-- `j` is reachable from `i` (reflexively) along operand references. -/
def reaches (g : Graph) (i j : Nat) : Bool := rchAux g i i j

theorem any_congr_mem {α : Type} {l : List α} {f f2 : α → Bool}
    (h : ∀ a ∈ l, f a = f2 a) : l.any f = l.any f2 := by
  induction l with
  | nil => rfl
  | cons x xs ih =>
      simp only [List.any_cons]
      rw [h x (List.mem_cons_self x xs), ih (fun a ha => h a (List.mem_cons_of_mem x ha))]

theorem rchAux_irrel (g : Graph) :
    ∀ f1 f2 i j, i ≤ f1 → i ≤ f2 → rchAux g f1 i j = rchAux g f2 i j := by
  intro f1
  induction f1 with
  | zero =>
      intro f2 i j h1 h2
      have hi : i = 0 := Nat.le_zero.mp h1
      subst hi
      cases f2 with
      | zero => rfl
      | succ f2 => simp [rchAux, g.children_node_zero]
  | succ f1 ih =>
      intro f2 i j h1 h2
      cases f2 with
      | zero =>
          have hi : i = 0 := Nat.le_zero.mp h2
          subst hi
          simp [rchAux, g.children_node_zero]
      | succ f2 =>
          simp only [rchAux]
          congr 1
          apply any_congr_mem
          intro c hc
          have hci : c < i := g.children_lt hc
          exact ih f2 c j (by omega) (by omega)

theorem reaches_rec (g : Graph) (i j : Nat) :
    reaches g i j = (i == j || (g.node i).children.any (fun c => reaches g c j)) := by
  unfold reaches
  cases i with
  | zero => simp [rchAux, g.children_node_zero]
  | succ n =>
      show rchAux g (n + 1) (n + 1) j = _
      simp only [rchAux]
      congr 1
      apply any_congr_mem
      intro c hc
      have : c < n + 1 := g.children_lt hc
      exact rchAux_irrel g n c c j (by omega) (le_refl c)

/-- Propositional reachability recurrence. -/
theorem reaches_iff (g : Graph) (i j : Nat) :
    reaches g i j = true ↔ i = j ∨ ∃ c ∈ (g.node i).children, reaches g c j = true := by
  rw [reaches_rec]
  simp [List.any_eq_true]

theorem reaches_self (g : Graph) (i : Nat) : reaches g i i = true := by
  rw [reaches_iff]; exact Or.inl rfl

theorem reaches_le (g : Graph) : ∀ i j, reaches g i j = true → j ≤ i := by
  intro i
  induction i using Nat.strong_induction_on with
  | _ i ih =>
      intro j hj
      rcases (reaches_iff g i j).1 hj with h | ⟨c, hc, hcj⟩
      · omega
      · have hci : c < i := g.children_lt hc
        exact le_trans (ih c hci j hcj) (Nat.le_of_lt hci)

theorem reaches_trans (g : Graph) : ∀ i j k, reaches g i j = true →
    reaches g j k = true → reaches g i k = true := by
  intro i
  induction i using Nat.strong_induction_on with
  | _ i ih =>
      intro j k hij hjk
      rcases (reaches_iff g i j).1 hij with h | ⟨c, hc, hcj⟩
      · exact h ▸ hjk
      · exact (reaches_iff g i k).2 (Or.inr ⟨c, hc, ih c (g.children_lt hc) j k hcj hjk⟩)

theorem reaches_of_child (g : Graph) {p c : Nat} (h : c ∈ (g.node p).children) :
    reaches g p c = true :=
  (reaches_iff g p c).2 (Or.inr ⟨c, h, reaches_self g c⟩)

/-!
## The per-node backward closures and the backward pass
-/

/-- Run the `backward` closure stored on node `i` on the gradient state `s`,
statement by statement, exactly as the Python closures execute
(`+=` reads then writes; `abs` and `sigmoid` assign instead of accumulating;
`__pow__` uses the captured scalar exponent; `relu` multiplies by the boolean
`val > 0`). -/
noncomputable def applyRule (g : Graph) (s : Nat → Real) (i : Nat) : Nat → Real :=
  match (g.node i).rule with
  | .noneR => s
  | .addR a b o =>
      let s1 := Function.update s a (s a + s o)
      Function.update s1 b (s1 b + s1 o)
  | .mulR a b o =>
      let s1 := Function.update s a (s a + (g.node b).val * s o)
      Function.update s1 b (s1 b + (g.node a).val * s1 o)
  | .absR a o =>
      if (g.node o).val > 0 then Function.update s a (s o)
      else if (g.node o).val < 0 then Function.update s a (-(s o))
      else s
  | .powR a k o =>
      Function.update s a (s a + k * Real.rpow ((g.node a).val) (k - 1) * s o)
  | .sigR a v o => Function.update s a (v * (1 - v) * s o)
  | .tanhR a v o => Function.update s a (s a + (1 - v ^ 2) * s o)
  | .reluR a v o => Function.update s a (s a + (if v > 0 then (1 : Real) else 0) * s o)
  | .expR a o => Function.update s a (s a + (g.node o).val * s o)

/-- `Value.backprop`: set the root's gradient to 1, build the topological
order, then run every backward closure in reverse topological order.  The
result is the final gradient-accumulator state. -/
noncomputable def backprop (g : Graph) (root : Nat) (s : Nat → Real) : Nat → Real :=
  (topoList g root).reverse.foldl (applyRule g) (Function.update s root 1)

/-- The local derivative the backward closure of node `p` contributes per unit
of `p`'s own gradient into the accumulator of node `c` (summed over the one or
two operand slots of `p` that reference `c`).  The two assigning rules
(`abs`, `sigmoid`) are excluded from every statement that uses `slot`, and get
slot 0 here. -/
noncomputable def slot (g : Graph) (p c : Nat) : Real :=
  match (g.node p).rule with
  | .noneR => 0
  | .addR a b _ => (if a = c then (1 : Real) else 0) + (if b = c then (1 : Real) else 0)
  | .mulR a b _ =>
      (if a = c then (g.node b).val else 0) + (if b = c then (g.node a).val else 0)
  | .absR _ _ => 0
  | .powR a k _ => if a = c then k * Real.rpow ((g.node a).val) (k - 1) else 0
  | .sigR _ _ _ => 0
  | .tanhR a v _ => if a = c then 1 - v ^ 2 else 0
  | .reluR a v _ => if a = c then (if v > 0 then (1 : Real) else 0) else 0
  | .expR a o => if a = c then (g.node o).val else 0

/-- The operand ids a backward rule writes into. -/
def BackRule.operands : BackRule → List Nat
  | .noneR => []
  | .addR a b _ => if a = b then [a] else [a, b]
  | .mulR a b _ => if a = b then [a] else [a, b]
  | .absR a _ => [a]
  | .powR a _ _ => [a]
  | .sigR a _ _ => [a]
  | .tanhR a _ _ => [a]
  | .reluR a _ _ => [a]
  | .expR a _ => [a]

/-- The output id a backward rule reads its own gradient from. -/
def BackRule.outId (i : Nat) : BackRule → Nat
  | .noneR => i
  | .addR _ _ o => o
  | .mulR _ _ o => o
  | .absR _ o => o
  | .powR _ _ o => o
  | .sigR _ _ o => o
  | .tanhR _ _ o => o
  | .reluR _ _ o => o
  | .expR _ o => o

/-- The operation tag a builder stores alongside each rule. -/
def BackRule.tagOf : BackRule → Option OpTag
  | .noneR => none
  | .addR _ _ _ => some .add
  | .mulR _ _ _ => some .mul
  | .absR _ _ => some .abs
  | .powR _ _ _ => some .pow
  | .sigR _ _ _ => some .sigmoid
  | .tanhR _ _ _ => some .tanh
  | .reluR _ _ _ => some .relu
  | .expR _ _ => some .exp

/-- Node `i` looks exactly as an operation builder left it: the closure's
output is the node itself, the children set is the (deduplicated) operand
set, and the stored tag matches the rule. -/
def ruleOK (n : Node) (i : Nat) : Prop :=
  n.rule.outId i = i ∧ n.children = n.rule.operands ∧ n.op = n.rule.tagOf

instance (n : Node) (i : Nat) : Decidable (ruleOK n i) := by
  unfold ruleOK
  cases n.rule <;> infer_instance

/-- Every node of the graph was left in builder shape. -/
def ruleWF (g : Graph) : Prop := ∀ i < g.size, ruleOK (g.node i) i

instance (g : Graph) : Decidable (ruleWF g) := by
  unfold ruleWF; infer_instance

/-- The rule accumulates (`+=`) rather than assigning: every rule except the
`abs` and `sigmoid` closures. -/
def BackRule.isAcc : BackRule → Bool
  | .absR _ _ => false
  | .sigR _ _ _ => false
  | _ => true

/-- Every node reachable from `root` carries an accumulating backward rule. -/
def accReach (g : Graph) (root : Nat) : Prop :=
  ∀ j ≤ root, reaches g root j = true → (g.node j).rule.isAcc = true

instance (g : Graph) (root : Nat) : Decidable (accReach g root) := by
  unfold accReach; infer_instance

theorem ruleOK_dflt (i : Nat) : ruleOK dfltNode i := by
  constructor <;> simp [dfltNode, BackRule.outId, BackRule.operands, BackRule.tagOf]

theorem ruleOK_of_wf {g : Graph} (h : ruleWF g) (i : Nat) : ruleOK (g.node i) i := by
  by_cases hi : i < g.size
  · exact h i hi
  · have : g.node i = dfltNode := by
      unfold Graph.node
      rw [List.getD_eq_default]
      exact Nat.le_of_not_lt hi
    rw [this]; exact ruleOK_dflt i

/-!
## Concrete graphs used by the test-style claims
-/

/-- `z = x * y` with `x = 3`, `y = 4`: ids 0 = x, 1 = y, 2 = z. -/
def chainNodes : List Node :=
  [⟨3, some "x", [], none, .noneR⟩,
   ⟨4, some "y", [], none, .noneR⟩,
   ⟨12, some "z", [0, 1], some .mul, .mulR 0 1 2⟩]

def chainG : Graph := Graph.ofList chainNodes (by decide)

/-- `out = (x*y1) + (x*y2)` with `x = 2`, `y1 = 3`, `y2 = 5`: ids 0 = x,
1 = y1, 2 = x*y1, 3 = y2, 4 = x*y2, 5 = out; node 0 fans out into the two
multiply nodes. -/
def fanNodes : List Node :=
  [⟨2, some "x", [], none, .noneR⟩,
   ⟨3, some "y1", [], none, .noneR⟩,
   ⟨6, none, [0, 1], some .mul, .mulR 0 1 2⟩,
   ⟨5, some "y2", [], none, .noneR⟩,
   ⟨10, none, [0, 3], some .mul, .mulR 0 3 4⟩,
   ⟨16, none, [2, 4], some .add, .addR 2 4 5⟩]

def fanG : Graph := Graph.ofList fanNodes (by decide)

/-- The all-zero initial gradient state. -/
def zeroGrad : Nat → Real := fun _ => 0

/-- C4.  Fan-in accumulation and chain-rule correctness, both starting from
all-zero gradient accumulators: in `out = (x*y1) + (x*y2)` with x=2, y1=3,
y2=5, the backward pass from `out` leaves grad(x) = y1 + y2 = 8 (both paths
contribute); in `z = x * y` with x=3, y=4 it leaves grad(x) = 4 and
grad(y) = 3. -/
theorem C4_fan_in_and_chain_rule :
    backprop fanG 5 zeroGrad 0 = 8 ∧
    backprop chainG 2 zeroGrad 0 = 4 ∧ backprop chainG 2 zeroGrad 1 = 3 := by
  have htf : topoList fanG 5 = [0, 1, 2, 3, 4, 5] := by decide
  have htc : topoList chainG 2 = [0, 1, 2] := by decide
  refine ⟨?_, ?_, ?_⟩
  · rw [backprop, htf]
    simp [applyRule, fanG, Graph.node, fanNodes, Graph.ofList, zeroGrad, Function.update]
    norm_num
  · rw [backprop, htc]
    simp [applyRule, chainG, Graph.node, chainNodes, Graph.ofList, zeroGrad, Function.update]
  · rw [backprop, htc]
    simp [applyRule, chainG, Graph.node, chainNodes, Graph.ofList, zeroGrad, Function.update]

/-!
## `Value.get_descendants`
-/

/-- Fuelled body of `get_descendants`: the union, over the children `c`, of
`{c} ∪ c.get_descendants(include_leafs=include_leafs)`.  The flag is passed
along exactly as in the Python source (which threads it but never consults
it). -/
def descAux (g : Graph) : Nat → Bool → Nat → Finset Nat
  | 0, _, _ => ∅
  | fuel + 1, b, i =>
      (g.node i).children.foldl (fun acc c => acc ∪ ({c} ∪ descAux g fuel b c)) ∅

/-- `v.get_descendants(include_leafs=b)`: the set of all strict descendants
of `v`. -/
def getDescendants (g : Graph) (b : Bool) (i : Nat) : Finset Nat := descAux g i b i

theorem foldl_congr_mem {α β : Type} {l : List α} {f f2 : β → α → β} {init : β}
    (h : ∀ acc, ∀ a ∈ l, f acc a = f2 acc a) : l.foldl f init = l.foldl f2 init := by
  induction l generalizing init with
  | nil => rfl
  | cons x xs ih =>
      simp only [List.foldl_cons]
      rw [h init x (List.mem_cons_self x xs)]
      exact ih (fun acc a ha => h acc a (List.mem_cons_of_mem x ha))

theorem descAux_flag (g : Graph) :
    ∀ fuel b b2 i, descAux g fuel b i = descAux g fuel b2 i := by
  intro fuel
  induction fuel with
  | zero => intro b b2 i; rfl
  | succ fuel ih =>
      intro b b2 i
      simp only [descAux]
      exact foldl_congr_mem (fun acc a _ => by rw [ih b b2 a])

theorem mem_foldl_union {h : Nat → Finset Nat} :
    ∀ (l : List Nat) (init : Finset Nat) (j : Nat),
      (j ∈ l.foldl (fun acc c => acc ∪ h c) init ↔ j ∈ init ∨ ∃ c ∈ l, j ∈ h c) := by
  intro l
  induction l with
  | nil => simp
  | cons x xs ih =>
      intro init j
      simp only [List.foldl_cons]
      rw [ih]
      simp [Finset.mem_union]
      tauto

theorem descAux_mem (g : Graph) :
    ∀ fuel, ∀ i ≤ fuel, ∀ b j,
      (j ∈ descAux g fuel b i ↔ ∃ c ∈ (g.node i).children, reaches g c j = true) := by
  intro fuel
  induction fuel with
  | zero =>
      intro i hi b j
      have : i = 0 := Nat.le_zero.mp hi
      subst this
      simp [descAux, g.children_node_zero]
  | succ fuel ih =>
      intro i hi b j
      simp only [descAux]
      rw [mem_foldl_union]
      simp only [Finset.not_mem_empty, false_or, Finset.mem_union, Finset.mem_singleton]
      constructor
      · rintro ⟨c, hc, hj | hj⟩
        · subst hj; exact ⟨j, hc, reaches_self g j⟩
        · have hcf : c ≤ fuel := by have := g.children_lt hc; omega
          rcases (ih c hcf b j).1 hj with ⟨c2, hc2, hr⟩
          exact ⟨c, hc, reaches_trans g c c2 j (reaches_of_child g hc2) hr⟩
      · rintro ⟨c, hc, hr⟩
        rcases (reaches_iff g c j).1 hr with h | ⟨c2, hc2, hr2⟩
        · exact ⟨c, hc, Or.inl h.symm⟩
        · have hcf : c ≤ fuel := by have := g.children_lt hc; omega
          exact ⟨c, hc, Or.inr ((ih c hcf b j).2 ⟨c2, hc2, hr2⟩)⟩

/-- C10.  `get_descendants` ignores its `include_leafs` flag entirely: both
flag values return the same set, and that set is exactly the strict
descendants (every node reachable from some child), leaves included. -/
theorem C10_get_descendants_flag_no_effect (g : Graph) (b b2 : Bool) (i : Nat) :
    getDescendants g b i = getDescendants g b2 i ∧
    ∀ j, j ∈ getDescendants g b i ↔ ∃ c ∈ (g.node i).children, reaches g c j = true := by
  constructor
  · exact descAux_flag g i b b2 i
  · exact fun j => descAux_mem g i i (le_refl i) b j

/-!
## `Value.grad_dict`

Python iterates the descendant set in unspecified set order; the model fixes
the canonical ascending-id enumeration.  The dict comprehension lets a later
entry overwrite an earlier entry with the same key, which `assocLast` mirrors.
-/

/-- The enumeration order of `self.get_descendants()` used by `grad_dict`:
the elements of the descendant set in ascending id order.  (Every strict
descendant has an id below the root's, so filtering `List.range root` lists
the whole set.) -/
def descList (g : Graph) (root : Nat) : List Nat :=
  (List.range root).filter (fun j => j ∈ getDescendants g false root)

theorem descList_mem (g : Graph) (root : Nat) (j : Nat) :
    j ∈ descList g root ↔ j ∈ getDescendants g false root := by
  unfold descList
  rw [List.mem_filter]
  simp only [List.mem_range, decide_eq_true_eq]
  constructor
  · exact fun h => h.2
  · intro h
    refine ⟨?_, h⟩
    rcases (descAux_mem g root root (le_refl root) false j).1 h with ⟨c, hc, hr⟩
    exact lt_of_le_of_lt (reaches_le g c j hr) (g.children_lt hc)

/-- The key of a descendant: its label when truthy (non-`None`, non-empty),
otherwise the decimal form of its enumeration index. -/
def keyOf (lab : Option String) (idx : Nat) : String :=
  match lab with
  | some l => if l = "" then toString idx else l
  | none => toString idx

/-- The (key, gradient) pairs produced by the `grad_dict` comprehension, in
enumeration order. -/
def gdPairs (g : Graph) (gr : Nat → Real) (root : Nat) : List (String × Real) :=
  (descList g root).enum.map (fun pr => (keyOf (g.node pr.2).label pr.1, gr pr.2))

/-- Build the final dictionary: later pairs overwrite earlier ones. -/
def assocLast (ps : List (String × Real)) (k : String) : Option Real :=
  ps.foldl (fun acc pr => if pr.1 = k then some pr.2 else acc) none

/-- `root.grad_dict` as a key-to-gradient lookup. -/
def gradDict (g : Graph) (gr : Nat → Real) (root : Nat) : String → Option Real :=
  assocLast (gdPairs g gr root)

theorem foldl_assoc_skip (k : String) :
    ∀ (ps : List (String × Real)) (acc : Option Real), (∀ q ∈ ps, q.1 ≠ k) →
      ps.foldl (fun a q => if q.1 = k then some q.2 else a) acc = acc := by
  intro ps
  induction ps with
  | nil => intro acc _; rfl
  | cons p ps ih =>
      intro acc h
      simp only [List.foldl_cons]
      rw [if_neg (h p (List.mem_cons_self p ps))]
      exact ih acc (fun q hq => h q (List.mem_cons_of_mem p hq))

theorem assocLast_of_nodup :
    ∀ (ps : List (String × Real)) (acc : Option Real) (pr : String × Real),
      pr ∈ ps → (ps.map Prod.fst).Nodup →
      ps.foldl (fun a q => if q.1 = pr.1 then some q.2 else a) acc = some pr.2 := by
  intro ps
  induction ps with
  | nil => intro acc pr h; exact absurd h (List.not_mem_nil pr)
  | cons p ps ih =>
      intro acc pr hmem hnd
      simp only [List.map_cons, List.nodup_cons] at hnd
      rcases List.mem_cons.1 hmem with h | h
      · subst h
        simp only [List.foldl_cons, if_pos rfl]
        apply foldl_assoc_skip
        intro q hq hqk
        exact hnd.1 (hqk ▸ List.mem_map_of_mem Prod.fst hq)
      · simp only [List.foldl_cons]
        exact ih _ pr h hnd.2

/-- Two leaves that share the label "x", summed: ids 0 and 1 are both
labelled "x", id 2 is the root `add` node. -/
def dupNodes : List Node :=
  [⟨1, some "x", [], none, .noneR⟩,
   ⟨2, some "x", [], none, .noneR⟩,
   ⟨3, some "s", [0, 1], some .add, .addR 0 1 2⟩]

def dupG : Graph := Graph.ofList dupNodes (by decide)

/-- A gradient state distinguishing the two leaves. -/
noncomputable def dupGr : Nat → Real := fun i => (i : Real)

/-- C6, counterexample.  In `dupG` both leaves derive the key "x"; the dict
comprehension keeps only the later entry, so descendant 0's gradient (0) is
missing from the mapping: the entry ("x", 0) is produced for node 0, but the
final mapping sends "x" to node 1's gradient instead. -/
theorem C6_counterexample :
    ("x", (0 : Real)) ∈ gdPairs dupG dupGr 2 ∧
    gradDict dupG dupGr 2 "x" ≠ some (0 : Real) := by
  have hd : descList dupG 2 = [0, 1] := by decide
  constructor
  · simp [gdPairs, hd, List.enum, List.enumFrom, keyOf, dupG, Graph.node, dupNodes,
      Graph.ofList, dupGr]
  · simp [gradDict, gdPairs, hd, List.enum, List.enumFrom, keyOf, dupG, Graph.node,
      dupNodes, Graph.ofList, dupGr, assocLast]
    decide

/-- C6, amended.  Provided the derived keys of the strict descendants are
pairwise distinct, `grad_dict` contains, for every strict descendant at its
enumeration position, an entry under its derived key (label when truthy,
positional index otherwise) whose value is exactly that descendant's gradient
accumulator.  (The root itself is not part of the mapping, and with colliding
keys a later descendant's entry overwrites an earlier one, as the
counterexample shows.) -/
theorem C6_grad_dict_complete_when_keys_distinct (g : Graph) (gr : Nat → Real)
    (root : Nat) (h : ((gdPairs g gr root).map Prod.fst).Nodup) :
    ∀ pr ∈ (descList g root).enum,
      gradDict g gr root (keyOf (g.node pr.2).label pr.1) = some (gr pr.2) := by
  intro pr hpr
  have hmem : (keyOf (g.node pr.2).label pr.1, gr pr.2) ∈ gdPairs g gr root := by
    unfold gdPairs
    exact List.mem_map_of_mem _ hpr
  exact assocLast_of_nodup (gdPairs g gr root) none _ hmem h

/-- Witness for the amended C6 at the `z = x * y` graph, whose keys "x", "y"
are distinct: each leaf's gradient is present under its label. -/
theorem C6_witness :
    (((gdPairs chainG zeroGrad 2).map Prod.fst).Nodup ∧
      gradDict chainG zeroGrad 2 "x" = some (zeroGrad 0)) := by
  have hd : descList chainG 2 = [0, 1] := by decide
  have hk : ((gdPairs chainG zeroGrad 2).map Prod.fst) = ["x", "y"] := by
    simp [gdPairs, hd, List.enum, List.enumFrom, keyOf, chainG, Graph.node, chainNodes,
      Graph.ofList]
    decide
  have hnd : ((gdPairs chainG zeroGrad 2).map Prod.fst).Nodup := by
    rw [hk]; decide
  refine ⟨hnd, ?_⟩
  have happ := C6_grad_dict_complete_when_keys_distinct chainG zeroGrad 2 hnd
    (0, 0) (by rw [hd]; simp [List.enum, List.enumFrom])
  simpa [chainG, Graph.node, chainNodes, Graph.ofList, keyOf] using happ

/-!
## `Value.recompute` (the "naive backprop" forward re-derivation)
-/

/-- The module-level `sigmoid` helper: `1 / (1 + exp(-x))`. -/
noncomputable def sigmoidF (x : Real) : Real := 1 / (1 + Real.exp (-x))

/-- The module-level `relu` helper: `max(0.0, x)`. -/
noncomputable def reluF (x : Real) : Real := max 0 x

/-- Looking a node's label up in the optional perturbation dict:
`mod is None or self.label not in mod` yields no value (an unlabeled node is
never a dict key). -/
def lookupMod : Option (List (String × Real)) → Option String → Option Real
  | none, _ => none
  | some _, none => none
  | some m, some l => m.lookup l

/-- Evaluate a list of fallible child recomputations left to right, stopping
at the first failure (the Python list comprehension's behavior when a
recursive call raises). -/
def seqExcept : List (Except Unit Real) → Except Unit (List Real)
  | [] => .ok []
  | x :: xs =>
      match x with
      | .error e => .error e
      | .ok v =>
          match seqExcept xs with
          | .error e => .error e
          | .ok vs => .ok (v :: vs)

/-- The `match self.op` dispatch of `recompute`, given the already recomputed
children `rcs`, the (possibly perturbed) `new_val` and the node's stored
`self.val`.  `assert` failures are `error`.  Note the source's quirks, kept
verbatim: `abs` asserts *no* children and returns a sign; `pow` asserts *two*
children and combines them; the four unary activations ignore the recomputed
child and re-apply the function to `self.val`. -/
noncomputable def opCase (t : OpTag) (newVal selfVal : Real) (rcs : List Real) :
    Except Unit Real :=
  match t with
  | .add => .ok rcs.sum
  | .mul => .ok rcs.prod
  | .abs =>
      if rcs.length = 0 then
        if newVal > 0 then .ok 1 else if newVal < 0 then .ok (-1) else .ok 0
      else .error ()
  | .pow =>
      if rcs.length = 2 then .ok ((rcs.getD 1 0 - 1) * rcs.getD 0 0) else .error ()
  | .sigmoid => if rcs.length = 1 then .ok (sigmoidF selfVal) else .error ()
  | .tanh => if rcs.length = 1 then .ok (Real.tanh selfVal) else .error ()
  | .relu => if rcs.length = 1 then .ok (reluF selfVal) else .error ()
  | .exp => if rcs.length = 1 then .ok (Real.exp selfVal) else .error ()

/-- Fuelled body of `Value.recompute`. -/
noncomputable def recAux (g : Graph) (mod : Option (List (String × Real))) :
    Nat → Nat → Except Unit Real
  | 0, i =>
      match (g.node i).op with
      | none => .ok ((lookupMod mod (g.node i).label).getD (g.node i).val)
      | some t =>
          opCase t ((lookupMod mod (g.node i).label).getD (g.node i).val) ((g.node i).val) []
  | fuel + 1, i =>
      match (g.node i).op with
      | none => .ok ((lookupMod mod (g.node i).label).getD (g.node i).val)
      | some t =>
          match seqExcept ((g.node i).children.map (fun c => recAux g mod fuel c)) with
          | .error e => .error e
          | .ok rcs =>
              opCase t ((lookupMod mod (g.node i).label).getD (g.node i).val)
                ((g.node i).val) rcs

/-- `v.recompute(mod)`. -/
noncomputable def recompute (g : Graph) (i : Nat)
    (mod : Option (List (String × Real))) : Except Unit Real := recAux g mod i i

theorem map_congr_mem {α β : Type} {l : List α} {f f2 : α → β}
    (h : ∀ a ∈ l, f a = f2 a) : l.map f = l.map f2 := by
  induction l with
  | nil => rfl
  | cons x xs ih =>
      simp only [List.map_cons]
      rw [h x (List.mem_cons_self x xs), ih (fun a ha => h a (List.mem_cons_of_mem x ha))]

theorem recAux_irrel (g : Graph) (mod : Option (List (String × Real))) :
    ∀ f1 f2 i, i ≤ f1 → i ≤ f2 → recAux g mod f1 i = recAux g mod f2 i := by
  intro f1
  induction f1 with
  | zero =>
      intro f2 i h1 h2
      have hi : i = 0 := Nat.le_zero.mp h1
      subst hi
      cases f2 with
      | zero => rfl
      | succ f2 => simp [recAux, g.children_node_zero, seqExcept]
  | succ f1 ih =>
      intro f2 i h1 h2
      cases f2 with
      | zero =>
          have hi : i = 0 := Nat.le_zero.mp h2
          subst hi
          simp [recAux, g.children_node_zero, seqExcept]
      | succ f2 =>
          simp only [recAux]
          have : (g.node i).children.map (fun c => recAux g mod f1 c) =
              (g.node i).children.map (fun c => recAux g mod f2 c) := by
            apply map_congr_mem
            intro c hc
            have : c < i := g.children_lt hc
            exact ih f2 c (by omega) (by omega)
          rw [this]

/-- The recursion `recompute` actually performs, stated with the canonical
fuel choice unfolded one step. -/
theorem recompute_rec (g : Graph) (mod : Option (List (String × Real))) (i : Nat) :
    recompute g i mod =
      match (g.node i).op with
      | none => .ok ((lookupMod mod (g.node i).label).getD (g.node i).val)
      | some t =>
          match seqExcept ((g.node i).children.map (fun c => recompute g c mod)) with
          | .error e => .error e
          | .ok rcs =>
              opCase t ((lookupMod mod (g.node i).label).getD (g.node i).val)
                ((g.node i).val) rcs := by
  unfold recompute
  cases i with
  | zero =>
      simp [recAux, g.children_node_zero, seqExcept]
  | succ n =>
      show recAux g mod (n + 1) (n + 1) = _
      simp only [recAux]
      have : (g.node (n + 1)).children.map (fun c => recAux g mod n c) =
          (g.node (n + 1)).children.map (fun c => recAux g mod c c) := by
        apply map_congr_mem
        intro c hc
        have : c < n + 1 := g.children_lt hc
        exact recAux_irrel g mod n c c (by omega) (le_refl c)
      rw [this]

/-- `p = x ** 3` with `x = 2`: a power node as `__pow__` builds it (one child,
the exponent captured only in the closure). -/
def powNodes : List Node :=
  [⟨2, some "x", [], none, .noneR⟩,
   ⟨8, none, [0], some .pow, .powR 0 3 1⟩]

def powG : Graph := Graph.ofList powNodes (by decide)

/-- C3, counterexample.  On the builder-made power node `x ** 3` (x = 2),
`recompute` with no perturbation map raises an assertion error instead of
returning the node's value: the `pow` branch asserts two recomputed children
but a power node has exactly one. -/
theorem C3_counterexample : recompute powG 1 none = Except.error () := by
  rw [recompute_rec]
  simp [powG, Graph.node, powNodes, Graph.ofList, recompute, recAux, lookupMod,
    seqExcept, opCase]

/-- Per-node value consistency: the node's stored value is the one its
builder computed from its operands' current values (with the captured
activation value equal to the output value where a closure captures one). -/
def valOK (g : Graph) (i : Nat) : Prop :=
  match (g.node i).rule with
  | .noneR => True
  | .addR a b _ => (g.node i).val = (g.node a).val + (g.node b).val
  | .mulR a b _ => (g.node i).val = (g.node a).val * (g.node b).val
  | .absR a _ => (g.node i).val = |(g.node a).val|
  | .powR a k _ => (g.node i).val = Real.rpow ((g.node a).val) k
  | .sigR a v _ => (g.node i).val = sigmoidF ((g.node a).val) ∧ v = (g.node i).val
  | .tanhR a v _ => (g.node i).val = Real.tanh ((g.node a).val) ∧ v = (g.node i).val
  | .reluR a v _ => (g.node i).val = reluF ((g.node a).val) ∧ v = (g.node i).val
  | .expR a _ => (g.node i).val = Real.exp ((g.node a).val)

/-- Every node's stored value is builder-consistent. -/
def valWF (g : Graph) : Prop := ∀ i < g.size, valOK g i

/-- The operation tags on which the no-perturbation `recompute` does
reproduce the forward value: leaves, two-operand `add`/`mul`, and `relu`. -/
def simpleOp (n : Node) : Prop :=
  n.op = none ∨ (n.op = some .add ∧ n.children.length = 2) ∨
    (n.op = some .mul ∧ n.children.length = 2) ∨ n.op = some .relu

theorem ruleOK_add {n : Node} {i : Nat} (h : ruleOK n i) (ht : n.op = some .add) :
    ∃ a b, n.rule = .addR a b i ∧ n.children = if a = b then [a] else [a, b] := by
  obtain ⟨ho, hc, htag⟩ := h
  rw [ht] at htag
  cases hr : n.rule <;> rw [hr] at htag ho hc <;>
    simp only [BackRule.tagOf, BackRule.outId, BackRule.operands] at htag ho hc
  case addR a b o =>
    subst ho
    exact ⟨a, b, rfl, hc⟩
  all_goals exact absurd htag (by simp)

theorem ruleOK_mul {n : Node} {i : Nat} (h : ruleOK n i) (ht : n.op = some .mul) :
    ∃ a b, n.rule = .mulR a b i ∧ n.children = if a = b then [a] else [a, b] := by
  obtain ⟨ho, hc, htag⟩ := h
  rw [ht] at htag
  cases hr : n.rule <;> rw [hr] at htag ho hc <;>
    simp only [BackRule.tagOf, BackRule.outId, BackRule.operands] at htag ho hc
  case mulR a b o =>
    subst ho
    exact ⟨a, b, rfl, hc⟩
  all_goals exact absurd htag (by simp)

theorem ruleOK_relu {n : Node} {i : Nat} (h : ruleOK n i) (ht : n.op = some .relu) :
    ∃ a v, n.rule = .reluR a v i ∧ n.children = [a] := by
  obtain ⟨ho, hc, htag⟩ := h
  rw [ht] at htag
  cases hr : n.rule <;> rw [hr] at htag ho hc <;>
    simp only [BackRule.tagOf, BackRule.outId, BackRule.operands] at htag ho hc
  case reluR a v o =>
    subst ho
    exact ⟨a, v, rfl, hc⟩
  all_goals exact absurd htag (by simp)

theorem reluF_idem (x : Real) : reluF (reluF x) = reluF x := by
  unfold reluF
  rw [← max_assoc, max_self]

/-- C3, amended.  The no-perturbation `recompute` (or one whose map names no
label of the reachable subgraph) returns exactly the node's current value,
with no assertion failure, whenever every reachable node is a leaf, a
two-operand `add` or `mul`, or a `relu`; it does not do so for every
operation tag (a power node fails an assertion, as the counterexample
shows). -/
theorem C3_recompute_identity_on_simple_ops (g : Graph) (hr : ruleWF g) (hv : valWF g)
    (mod : Option (List (String × Real))) :
    ∀ i < g.size,
      (∀ j ≤ i, reaches g i j = true → simpleOp (g.node j)) →
      (∀ j ≤ i, reaches g i j = true → lookupMod mod (g.node j).label = none) →
      recompute g i mod = .ok ((g.node i).val) := by
  intro i
  induction i using Nat.strong_induction_on with
  | _ i ih =>
      intro hi hsimp hmod
      rw [recompute_rec]
      have hOK := hr i hi
      have hvi := hv i hi
      have hself := hmod i (le_refl i) (reaches_self g i)
      have childIH : ∀ c ∈ (g.node i).children, recompute g c mod = .ok ((g.node c).val) := by
        intro c hc
        have hci : c < i := g.children_lt hc
        have hreach : reaches g i c = true := reaches_of_child g hc
        refine ih c hci (lt_trans hci hi) ?_ ?_
        · intro j hj hrj
          exact hsimp j (le_trans hj (Nat.le_of_lt hci))
            (reaches_trans g i c j hreach hrj)
        · intro j hj hrj
          exact hmod j (le_trans hj (Nat.le_of_lt hci))
            (reaches_trans g i c j hreach hrj)
      rcases hsimp i (le_refl i) (reaches_self g i) with hnone | ⟨htag, hlen⟩ |
        ⟨htag, hlen⟩ | htag
      · simp [hnone, hself]
      · obtain ⟨a, b, hrule, hch⟩ := ruleOK_add hOK htag
        have hab : a ≠ b := by
          intro h
          rw [hch, if_pos h] at hlen
          simp at hlen
        have hch2 : (g.node i).children = [a, b] := by rwa [if_neg hab] at hch
        have hvab : (g.node i).val = (g.node a).val + (g.node b).val := by
          unfold valOK at hvi
          rw [hrule] at hvi
          exact hvi
        rw [htag, hch2]
        simp only [List.map_cons, List.map_nil,
          childIH a (by rw [hch2]; simp), childIH b (by rw [hch2]; simp), seqExcept]
        simp [opCase, hvab]
      · obtain ⟨a, b, hrule, hch⟩ := ruleOK_mul hOK htag
        have hab : a ≠ b := by
          intro h
          rw [hch, if_pos h] at hlen
          simp at hlen
        have hch2 : (g.node i).children = [a, b] := by rwa [if_neg hab] at hch
        have hvab : (g.node i).val = (g.node a).val * (g.node b).val := by
          unfold valOK at hvi
          rw [hrule] at hvi
          exact hvi
        rw [htag, hch2]
        simp only [List.map_cons, List.map_nil,
          childIH a (by rw [hch2]; simp), childIH b (by rw [hch2]; simp), seqExcept]
        simp [opCase, hvab]
      · obtain ⟨a, v, hrule, hch⟩ := ruleOK_relu hOK htag
        have hva : (g.node i).val = reluF ((g.node a).val) := by
          unfold valOK at hvi
          rw [hrule] at hvi
          exact hvi.1
        rw [htag, hch]
        simp only [List.map_cons, List.map_nil, childIH a (by rw [hch]; simp), seqExcept]
        simp [opCase, hva, reluF_idem]

/-- Witness for the amended C3: on `z = x * y` (x = 3, y = 4) with no
perturbation map, `recompute` returns the stored value of every node;
instantiated at the root. -/
theorem C3_witness :
    ruleWF chainG ∧ valWF chainG ∧ 2 < chainG.size ∧
      recompute chainG 2 none = .ok ((chainG.node 2).val) := by
  have hr : ruleWF chainG := by decide
  have hv : valWF chainG := by
    intro i hi
    have hi3 : i < 3 := hi
    interval_cases i <;>
      simp [valOK, chainG, Graph.node, chainNodes, Graph.ofList] <;> norm_num
  refine ⟨hr, hv, by decide, ?_⟩
  apply C3_recompute_identity_on_simple_ops chainG hr hv none 2 (by decide)
  · intro j hj hrj
    have hj2 : j ≤ 2 := hj
    interval_cases j <;> simp [simpleOp, chainG, Graph.node, chainNodes, Graph.ofList]
  · intro j hj hrj
    simp [lookupMod]

/-!
## `MLP.step`
-/

/-- The update loop of `MLP.step` over the parameter list, after the backward
pass: `assert p.grad` (a zero gradient is falsy and raises AssertionError),
then `p.val -= lr * p.grad`.  The state is the value assignment. -/
noncomputable def stepLoop (gr : Nat → Real) (lr : Real) :
    List Nat → (Nat → Real) → Except Unit (Nat → Real)
  | [], vals => .ok vals
  | p :: ps, vals =>
      if gr p = 0 then .error ()
      else stepLoop gr lr ps (Function.update vals p (vals p - lr * gr p))

/-- `MLP.step(loss, lr)`: run `loss.backprop()` on the current gradient state,
then fold the assert-and-update loop over the parameters, starting from the
graph's current values. -/
noncomputable def mlpStep (g : Graph) (gr0 : Nat → Real) (loss : Nat)
    (params : List Nat) (lr : Real) : Except Unit (Nat → Real) :=
  stepLoop (backprop g loss gr0) lr params (fun i => (g.node i).val)

theorem stepLoop_error_iff (gr : Nat → Real) (lr : Real) :
    ∀ (ps : List Nat) (vals : Nat → Real),
      stepLoop gr lr ps vals = .error () ↔ ∃ p ∈ ps, gr p = 0 := by
  intro ps
  induction ps with
  | nil => intro vals; simp [stepLoop]
  | cons p ps ih =>
      intro vals
      simp only [stepLoop]
      by_cases hp : gr p = 0
      · simp [hp]
      · rw [if_neg hp, ih]
        simp [hp]

theorem stepLoop_ok_frame (gr : Nat → Real) (lr : Real) :
    ∀ (ps : List Nat) (vals vals2 : Nat → Real), stepLoop gr lr ps vals = .ok vals2 →
      ∀ q, q ∉ ps → vals2 q = vals q := by
  intro ps
  induction ps with
  | nil =>
      intro vals vals2 h q _
      simp only [stepLoop, Except.ok.injEq] at h
      rw [← h]
  | cons p ps ih =>
      intro vals vals2 h q hq
      simp only [stepLoop] at h
      by_cases hp : gr p = 0
      · rw [if_pos hp] at h; exact absurd h (by simp)
      · rw [if_neg hp] at h
        have hq1 : q ∉ ps := fun hm => hq (List.mem_cons_of_mem p hm)
        have hq2 : q ≠ p := fun he => hq (he ▸ List.mem_cons_self p ps)
        rw [ih _ _ h q hq1, Function.update_noteq hq2]

theorem stepLoop_ok_update (gr : Nat → Real) (lr : Real) :
    ∀ (ps : List Nat) (vals : Nat → Real), ps.Nodup → (∀ p ∈ ps, gr p ≠ 0) →
      ∃ vals2, stepLoop gr lr ps vals = .ok vals2 ∧
        ∀ p ∈ ps, vals2 p = vals p - lr * gr p := by
  intro ps
  induction ps with
  | nil => intro vals _ _; exact ⟨vals, rfl, by simp⟩
  | cons p ps ih =>
      intro vals hnd hnz
      have hp : gr p ≠ 0 := hnz p (List.mem_cons_self p ps)
      rw [List.nodup_cons] at hnd
      obtain ⟨vals2, hok, hupd⟩ := ih (Function.update vals p (vals p - lr * gr p))
        hnd.2 (fun q hq => hnz q (List.mem_cons_of_mem p hq))
      refine ⟨vals2, ?_, ?_⟩
      · simp only [stepLoop, if_neg hp]
        exact hok
      · intro q hq
        rcases List.mem_cons.1 hq with h | h
        · subst h
          rw [stepLoop_ok_frame gr lr ps _ _ hok q hnd.1, Function.update_same]
        · rw [hupd q h]
          have hq2 : q ≠ p := fun he => hnd.1 (he ▸ h)
          rw [Function.update_noteq hq2]

/-- C7.  `MLP.step` first backpropagates from the loss, then walks the
parameters in order asserting a non-zero (truthy) gradient accumulator before
each update: it raises an assertion error exactly when some parameter's
gradient is zero at its turn, and otherwise updates every parameter's value
to `val - lr * grad` (and touches no other node's value). -/
theorem C7_mlp_step (g : Graph) (gr0 : Nat → Real) (loss : Nat) (params : List Nat)
    (lr : Real) :
    (mlpStep g gr0 loss params lr = .error () ↔
      ∃ p ∈ params, backprop g loss gr0 p = 0) ∧
    (params.Nodup → (∀ p ∈ params, backprop g loss gr0 p ≠ 0) →
      ∃ vals2, mlpStep g gr0 loss params lr = .ok vals2 ∧
        (∀ p ∈ params, vals2 p = (g.node p).val - lr * backprop g loss gr0 p) ∧
        ∀ q, q ∉ params → vals2 q = (g.node q).val) := by
  constructor
  · exact stepLoop_error_iff (backprop g loss gr0) lr params _
  · intro hnd hnz
    obtain ⟨vals2, hok, hupd⟩ :=
      stepLoop_ok_update (backprop g loss gr0) lr params _ hnd hnz
    exact ⟨vals2, hok, hupd, fun q hq =>
      stepLoop_ok_frame (backprop g loss gr0) lr params _ _ hok q hq⟩

/-- Witness for C7 on `z = x * y`: both parameter gradients are non-zero, so
the step succeeds and applies `val - lr * grad` to both leaves. -/
theorem C7_witness :
    ([0, 1] : List Nat).Nodup ∧
    (∀ p ∈ ([0, 1] : List Nat), backprop chainG 2 zeroGrad p ≠ 0) ∧
    ∃ vals2, mlpStep chainG zeroGrad 2 [0, 1] 1 = .ok vals2 ∧
      (∀ p ∈ ([0, 1] : List Nat),
        vals2 p = (chainG.node p).val - 1 * backprop chainG 2 zeroGrad p) ∧
      ∀ q, q ∉ ([0, 1] : List Nat) → vals2 q = (chainG.node q).val := by
  have htc : topoList chainG 2 = [0, 1, 2] := by decide
  have hb0 : backprop chainG 2 zeroGrad 0 = 4 := by
    rw [backprop, htc]
    simp [applyRule, chainG, Graph.node, chainNodes, Graph.ofList, zeroGrad, Function.update]
  have hb1 : backprop chainG 2 zeroGrad 1 = 3 := by
    rw [backprop, htc]
    simp [applyRule, chainG, Graph.node, chainNodes, Graph.ofList, zeroGrad, Function.update]
  have hnz : ∀ p ∈ ([0, 1] : List Nat), backprop chainG 2 zeroGrad p ≠ 0 := by
    intro p hp
    rcases List.mem_cons.1 hp with h | h
    · subst h; rw [hb0]; norm_num
    · have : p = 1 := by simpa using h
      subst this; rw [hb1]; norm_num
  exact ⟨by decide, hnz, (C7_mlp_step chainG zeroGrad 2 [0, 1] 1).2 (by decide) hnz⟩

/-!
## Operation builders

Each Python builder allocates one fresh `Value` (`grad = 0`) whose children
reference the operands, and installs the backward closure; a plain-scalar
operand is first promoted to a fresh constant leaf.  Builders act on the pair
(graph, gradient state).
-/

/-- Append a freshly constructed node. -/
def pushNode (g : Graph) (n : Node) (hn : ∀ j ∈ n.children, j < g.size) : Graph :=
  ⟨g.nodes ++ [n], by
    intro i j hj
    rcases Nat.lt_trichotomy i g.nodes.length with hi | hi | hi
    · rw [List.getD_append _ _ _ _ hi] at hj
      exact g.wf i j hj
    · subst hi
      rw [List.getD_append_right _ _ _ _ (le_refl _), Nat.sub_self] at hj
      exact hn j hj
    · rw [List.getD_eq_default] at hj
      · simp [dfltNode] at hj
      · simp only [List.length_append, List.length_cons, List.length_nil]
        omega⟩

theorem size_push (g : Graph) (n : Node) (hn : ∀ j ∈ n.children, j < g.size) :
    (pushNode g n hn).size = g.size + 1 := by
  simp [pushNode, Graph.size]

theorem node_push (g : Graph) (n : Node) (hn : ∀ j ∈ n.children, j < g.size) (i : Nat) :
    (pushNode g n hn).node i = if i = g.size then n else g.node i := by
  unfold pushNode Graph.node Graph.size at *
  rcases Nat.lt_trichotomy i g.nodes.length with hi | hi | hi
  · rw [List.getD_append _ _ _ _ hi, if_neg (by omega)]
  · subst hi
    rw [List.getD_append_right _ _ _ _ (le_refl _), Nat.sub_self, if_pos rfl]
    rfl
  · rw [if_neg (by omega), List.getD_eq_default, List.getD_eq_default]
    · omega
    · simp only [List.length_append, List.length_cons, List.length_nil]
      omega

/-- `Value(val, label)`: construct a leaf. -/
noncomputable def leafB (g : Graph) (gr : Nat → Real) (v : Real) (lab : Option String) :
    Graph × (Nat → Real) :=
  (pushNode g ⟨v, lab, [], none, .noneR⟩ (by intro j hj; simp at hj),
    Function.update gr g.size 0)

/-- `self + other` for two existing values. -/
noncomputable def addB (g : Graph) (gr : Nat → Real) (a b : Nat)
    (ha : a < g.size) (hb : b < g.size) : Graph × (Nat → Real) :=
  (pushNode g
    ⟨(g.node a).val + (g.node b).val, none, if a = b then [a] else [a, b],
      some .add, .addR a b g.size⟩
    (by
      intro j hj
      by_cases hab : a = b
      · rw [if_pos hab] at hj
        simp only [List.mem_singleton] at hj
        omega
      · rw [if_neg hab] at hj
        rcases List.mem_cons.1 hj with h | h
        · omega
        · simp only [List.mem_singleton] at h
          omega),
    Function.update gr g.size 0)

/-- `self * other` for two existing values. -/
noncomputable def mulB (g : Graph) (gr : Nat → Real) (a b : Nat)
    (ha : a < g.size) (hb : b < g.size) : Graph × (Nat → Real) :=
  (pushNode g
    ⟨(g.node a).val * (g.node b).val, none, if a = b then [a] else [a, b],
      some .mul, .mulR a b g.size⟩
    (by
      intro j hj
      by_cases hab : a = b
      · rw [if_pos hab] at hj
        simp only [List.mem_singleton] at hj
        omega
      · rw [if_neg hab] at hj
        rcases List.mem_cons.1 hj with h | h
        · omega
        · simp only [List.mem_singleton] at h
          omega),
    Function.update gr g.size 0)

/-- `self ** k` with a plain scalar exponent. -/
noncomputable def powB (g : Graph) (gr : Nat → Real) (a : Nat) (k : Real)
    (ha : a < g.size) : Graph × (Nat → Real) :=
  (pushNode g ⟨Real.rpow ((g.node a).val) k, none, [a], some .pow, .powR a k g.size⟩
    (by intro j hj; simp only [List.mem_singleton] at hj; omega),
    Function.update gr g.size 0)

/-- `abs(self)`. -/
noncomputable def absB (g : Graph) (gr : Nat → Real) (a : Nat)
    (ha : a < g.size) : Graph × (Nat → Real) :=
  (pushNode g ⟨|(g.node a).val|, none, [a], some .abs, .absR a g.size⟩
    (by intro j hj; simp only [List.mem_singleton] at hj; omega),
    Function.update gr g.size 0)

/-- `self.sigmoid()`; the closure captures the computed activation value. -/
noncomputable def sigmoidB (g : Graph) (gr : Nat → Real) (a : Nat)
    (ha : a < g.size) : Graph × (Nat → Real) :=
  (pushNode g
    ⟨sigmoidF ((g.node a).val), none, [a], some .sigmoid,
      .sigR a (sigmoidF ((g.node a).val)) g.size⟩
    (by intro j hj; simp only [List.mem_singleton] at hj; omega),
    Function.update gr g.size 0)

/-- `self.tanh()`; the closure captures the computed activation value. -/
noncomputable def tanhB (g : Graph) (gr : Nat → Real) (a : Nat)
    (ha : a < g.size) : Graph × (Nat → Real) :=
  (pushNode g
    ⟨Real.tanh ((g.node a).val), none, [a], some .tanh,
      .tanhR a (Real.tanh ((g.node a).val)) g.size⟩
    (by intro j hj; simp only [List.mem_singleton] at hj; omega),
    Function.update gr g.size 0)

/-- `self.relu()`; the closure captures the computed activation value. -/
noncomputable def reluB (g : Graph) (gr : Nat → Real) (a : Nat)
    (ha : a < g.size) : Graph × (Nat → Real) :=
  (pushNode g
    ⟨reluF ((g.node a).val), none, [a], some .relu,
      .reluR a (reluF ((g.node a).val)) g.size⟩
    (by intro j hj; simp only [List.mem_singleton] at hj; omega),
    Function.update gr g.size 0)

/-- `self.exp()`. -/
noncomputable def expB (g : Graph) (gr : Nat → Real) (a : Nat)
    (ha : a < g.size) : Graph × (Nat → Real) :=
  (pushNode g ⟨Real.exp ((g.node a).val), none, [a], some .exp, .expR a g.size⟩
    (by intro j hj; simp only [List.mem_singleton] at hj; omega),
    Function.update gr g.size 0)

/-- `self + c` with a plain scalar: promote `c` to a fresh constant leaf,
then add. -/
noncomputable def addC (g : Graph) (gr : Nat → Real) (a : Nat) (c : Real)
    (ha : a < g.size) : Graph × (Nat → Real) :=
  addB (leafB g gr c none).1 (leafB g gr c none).2 a g.size
    (by simp only [leafB, size_push]; omega)
    (by simp only [leafB, size_push]; omega)

/-- `self * c` with a plain scalar: promote `c` to a fresh constant leaf,
then multiply. -/
noncomputable def mulC (g : Graph) (gr : Nat → Real) (a : Nat) (c : Real)
    (ha : a < g.size) : Graph × (Nat → Real) :=
  mulB (leafB g gr c none).1 (leafB g gr c none).2 a g.size
    (by simp only [leafB, size_push]; omega)
    (by simp only [leafB, size_push]; omega)

/-- `-self`, defined in the source as `self * -1`. -/
noncomputable def negB (g : Graph) (gr : Nat → Real) (a : Nat)
    (ha : a < g.size) : Graph × (Nat → Real) :=
  mulC g gr a (-1) ha

theorem size_mulC (g : Graph) (gr : Nat → Real) (a : Nat) (c : Real) (ha : a < g.size) :
    (mulC g gr a c ha).1.size = g.size + 2 := by
  simp [mulC, mulB, leafB, size_push]

theorem size_powB (g : Graph) (gr : Nat → Real) (a : Nat) (k : Real) (ha : a < g.size) :
    (powB g gr a k ha).1.size = g.size + 1 := by
  simp [powB, size_push]

/-- `self - other`, defined in the source as `self + (-other)`. -/
noncomputable def subB (g : Graph) (gr : Nat → Real) (a b : Nat)
    (ha : a < g.size) (hb : b < g.size) : Graph × (Nat → Real) :=
  addB (negB g gr b hb).1 (negB g gr b hb).2 a (g.size + 1)
    (by rw [negB, size_mulC]; omega)
    (by rw [negB, size_mulC]; omega)

/-- `self / other`, defined in the source as `self * other ** (-1)`. -/
noncomputable def divB (g : Graph) (gr : Nat → Real) (a b : Nat)
    (ha : a < g.size) (hb : b < g.size) : Graph × (Nat → Real) :=
  mulB (powB g gr b (-1) hb).1 (powB g gr b (-1) hb).2 a g.size
    (by rw [size_powB]; omega)
    (by rw [size_powB]; omega)

/-- What a builder must not disturb: every pre-existing node (value, label,
operand set, operation tag, backward closure) and every pre-existing gradient
accumulator. -/
def preservesB (g : Graph) (gr : Nat → Real) (p : Graph × (Nat → Real)) : Prop :=
  ∀ i < g.size, p.1.node i = g.node i ∧ p.2 i = gr i

theorem preservesB_push (g : Graph) (gr : Nat → Real) (n : Node)
    (hn : ∀ j ∈ n.children, j < g.size) :
    preservesB g gr (pushNode g n hn, Function.update gr g.size 0) := by
  intro i hi
  constructor
  · rw [node_push, if_neg (by omega)]
  · show Function.update gr g.size 0 i = gr i
    rw [Function.update_noteq (by omega)]

theorem preservesB_comp {g g1 : Graph} {gr gr1 : Nat → Real} {p : Graph × (Nat → Real)}
    (h1 : preservesB g gr (g1, gr1)) (h2 : preservesB g1 gr1 p)
    (hle : g.size ≤ g1.size) : preservesB g gr p := by
  intro i hi
  obtain ⟨hn1, hg1⟩ := h1 i hi
  obtain ⟨hn2, hg2⟩ := h2 i (lt_of_lt_of_le hi hle)
  exact ⟨hn2.trans hn1, hg2.trans hg1⟩

theorem size_leafB (g : Graph) (gr : Nat → Real) (v : Real) (lab : Option String) :
    (leafB g gr v lab).1.size = g.size + 1 := by
  simp [leafB, size_push]

/-- C9.  Every operation builder — `add`, `mul`, `pow`, `abs`, `sigmoid`,
`tanh`, `relu`, `exp`, the scalar-promoting `add`/`mul`, and the derived
negation, subtraction, division — leaves every pre-existing node and every
pre-existing gradient accumulator exactly as it was, and allocates only the
stated number of fresh nodes (one output node, plus one constant leaf per
promoted scalar). -/
theorem C9_builders_frame (g : Graph) (gr : Nat → Real) (a b : Nat) (k c : Real)
    (ha : a < g.size) (hb : b < g.size) :
    (preservesB g gr (addB g gr a b ha hb) ∧ (addB g gr a b ha hb).1.size = g.size + 1) ∧
    (preservesB g gr (mulB g gr a b ha hb) ∧ (mulB g gr a b ha hb).1.size = g.size + 1) ∧
    (preservesB g gr (powB g gr a k ha) ∧ (powB g gr a k ha).1.size = g.size + 1) ∧
    (preservesB g gr (absB g gr a ha) ∧ (absB g gr a ha).1.size = g.size + 1) ∧
    (preservesB g gr (sigmoidB g gr a ha) ∧ (sigmoidB g gr a ha).1.size = g.size + 1) ∧
    (preservesB g gr (tanhB g gr a ha) ∧ (tanhB g gr a ha).1.size = g.size + 1) ∧
    (preservesB g gr (reluB g gr a ha) ∧ (reluB g gr a ha).1.size = g.size + 1) ∧
    (preservesB g gr (expB g gr a ha) ∧ (expB g gr a ha).1.size = g.size + 1) ∧
    (preservesB g gr (leafB g gr c none) ∧ (leafB g gr c none).1.size = g.size + 1) ∧
    (preservesB g gr (addC g gr a c ha) ∧ (addC g gr a c ha).1.size = g.size + 2) ∧
    (preservesB g gr (mulC g gr a c ha) ∧ (mulC g gr a c ha).1.size = g.size + 2) ∧
    (preservesB g gr (negB g gr a ha) ∧ (negB g gr a ha).1.size = g.size + 2) ∧
    (preservesB g gr (subB g gr a b ha hb) ∧ (subB g gr a b ha hb).1.size = g.size + 3) ∧
    (preservesB g gr (divB g gr a b ha hb) ∧ (divB g gr a b ha hb).1.size = g.size + 2) := by
  have hLeaf : ∀ (g2 : Graph) (gr2 : Nat → Real) (v : Real) (lab : Option String),
      preservesB g2 gr2 (leafB g2 gr2 v lab) :=
    fun g2 gr2 v lab => preservesB_push g2 gr2 _ _
  refine ⟨⟨preservesB_push g gr _ _, by simp [addB, size_push]⟩,
    ⟨preservesB_push g gr _ _, by simp [mulB, size_push]⟩,
    ⟨preservesB_push g gr _ _, by simp [powB, size_push]⟩,
    ⟨preservesB_push g gr _ _, by simp [absB, size_push]⟩,
    ⟨preservesB_push g gr _ _, by simp [sigmoidB, size_push]⟩,
    ⟨preservesB_push g gr _ _, by simp [tanhB, size_push]⟩,
    ⟨preservesB_push g gr _ _, by simp [reluB, size_push]⟩,
    ⟨preservesB_push g gr _ _, by simp [expB, size_push]⟩,
    ⟨hLeaf g gr c none, size_leafB g gr c none⟩, ?_, ?_, ?_, ?_, ?_⟩
  · refine ⟨preservesB_comp (hLeaf g gr c none) (preservesB_push _ _ _ _)
      (by rw [size_push]; omega), ?_⟩
    simp [addC, addB, leafB, size_push]
  · refine ⟨preservesB_comp (hLeaf g gr c none) (preservesB_push _ _ _ _)
      (by rw [size_push]; omega), ?_⟩
    simp [mulC, mulB, leafB, size_push]
  · refine ⟨preservesB_comp (hLeaf g gr (-1) none) (preservesB_push _ _ _ _)
      (by rw [size_push]; omega), ?_⟩
    rw [negB, size_mulC]
  · constructor
    · unfold subB addB
      refine @preservesB_comp g (negB g gr b hb).1 gr (negB g gr b hb).2 _
        ?_ (preservesB_push _ _ _ _) (by rw [negB, size_mulC]; omega)
      unfold negB mulC mulB
      refine preservesB_comp (hLeaf g gr (-1) none) (preservesB_push _ _ _ ?_)
        (by rw [size_push]; omega)
      rw [size_push]
      intro j hj
      by_cases hbs : b = g.size
      · rw [if_pos hbs] at hj
        simp only [List.mem_singleton] at hj
        omega
      · rw [if_neg hbs] at hj
        rcases List.mem_cons.1 hj with h | h
        · omega
        · simp only [List.mem_singleton] at h
          omega
    · simp [subB, addB, size_push, negB, size_mulC]
  · constructor
    · unfold divB mulB
      exact @preservesB_comp g (powB g gr b (-1) hb).1 gr (powB g gr b (-1) hb).2 _
        (preservesB_push _ _ _ (by intro j hj; simp only [List.mem_singleton] at hj; omega))
        (preservesB_push _ _ _ _)
        (by rw [size_powB]; omega)
    · simp [divB, mulB, size_push, size_powB]

/-- Witness for C9 on `z = x * y`: the add builder applied to the two leaves
changes neither leaf 0's node nor its gradient accumulator. -/
theorem C9_witness :
    0 < chainG.size ∧ 1 < chainG.size ∧
    ((addB chainG zeroGrad 0 1 (by decide) (by decide)).1.node 0 = chainG.node 0 ∧
      (addB chainG zeroGrad 0 1 (by decide) (by decide)).2 0 = zeroGrad 0) := by
  refine ⟨by decide, by decide, ?_⟩
  exact (C9_builders_frame chainG zeroGrad 0 1 2 5 (by decide) (by decide)).1.1 0 (by decide)

/-!
## Forward values of the builders (C8)
-/

/-- The empty graph, before any `Value` is constructed. -/
def emptyG : Graph :=
  ⟨[], by
    intro i j hj
    rw [List.getD_eq_default] at hj
    · simp [dfltNode] at hj
    · simp⟩

/-- A single fresh leaf with value `v`. -/
noncomputable def leaf1 (v : Real) : Graph × (Nat → Real) := leafB emptyG zeroGrad v none

/-- Two fresh leaves with values `v` then `w` (ids 0 and 1). -/
noncomputable def leaf2 (v w : Real) : Graph × (Nat → Real) :=
  leafB (leaf1 v).1 (leaf1 v).2 w none

theorem size_leaf1 (v : Real) : (leaf1 v).1.size = 1 := by
  rw [leaf1, size_leafB]
  rfl

theorem size_leaf2 (v w : Real) : (leaf2 v w).1.size = 2 := by
  rw [leaf2, size_leafB, size_leaf1]

/-- C8.  Each builder's forward value matches the documented formula at the
representative inputs: `2 + 3 = 5`, `2 * 3 = 6`, `2 ** 3 = 8`, `tanh 0 = 0`,
`sigmoid 0 = 1/2`, `relu (-1) = 0`, `exp 0 = 1`. -/
theorem C8_forward_values :
    ((addB (leaf2 2 3).1 (leaf2 2 3).2 0 1
        (by rw [size_leaf2]; omega) (by rw [size_leaf2]; omega)).1.node 2).val = 5 ∧
    ((mulB (leaf2 2 3).1 (leaf2 2 3).2 0 1
        (by rw [size_leaf2]; omega) (by rw [size_leaf2]; omega)).1.node 2).val = 6 ∧
    ((powB (leaf1 2).1 (leaf1 2).2 0 3 (by rw [size_leaf1]; omega)).1.node 1).val = 8 ∧
    ((tanhB (leaf1 0).1 (leaf1 0).2 0 (by rw [size_leaf1]; omega)).1.node 1).val = 0 ∧
    ((sigmoidB (leaf1 0).1 (leaf1 0).2 0 (by rw [size_leaf1]; omega)).1.node 1).val
      = 1 / 2 ∧
    ((reluB (leaf1 (-1)).1 (leaf1 (-1)).2 0 (by rw [size_leaf1]; omega)).1.node 1).val
      = 0 ∧
    ((expB (leaf1 0).1 (leaf1 0).2 0 (by rw [size_leaf1]; omega)).1.node 1).val = 1 := by
  have h1 : ∀ v : Real, ((leaf1 v).1.node 0).val = v := by
    intro v
    rw [leaf1, leafB, node_push, if_pos (show 0 = emptyG.size from rfl)]
  have h2 : ∀ v w : Real, ((leaf2 v w).1.node 0).val = v ∧ ((leaf2 v w).1.node 1).val = w := by
    intro v w
    constructor
    · rw [leaf2, leafB, node_push, if_neg (by rw [size_leaf1]; omega)]
      exact h1 v
    · rw [leaf2, leafB, node_push, if_pos (size_leaf1 v).symm]
  refine ⟨?_, ?_, ?_, ?_, ?_, ?_, ?_⟩
  · rw [addB, node_push, if_pos (size_leaf2 2 3).symm] at *
    simp [(h2 2 3).1, (h2 2 3).2]
    norm_num
  · rw [mulB, node_push, if_pos (size_leaf2 2 3).symm] at *
    simp [(h2 2 3).1, (h2 2 3).2]
    norm_num
  · rw [powB, node_push, if_pos (size_leaf1 2).symm] at *
    simp only [h1]
    rw [show (3 : Real) = ((3 : Nat) : Real) by norm_num]
    show (2 : Real) ^ ((3 : Nat) : Real) = 8
    rw [Real.rpow_natCast]
    norm_num
  · rw [tanhB, node_push, if_pos (size_leaf1 0).symm] at *
    simp only [h1]
    exact Real.tanh_zero
  · rw [sigmoidB, node_push, if_pos (size_leaf1 0).symm] at *
    simp only [h1]
    rw [sigmoidF]
    norm_num
  · rw [reluB, node_push, if_pos (size_leaf1 (-1)).symm] at *
    simp only [h1]
    rw [reluF]
    norm_num
  · rw [expB, node_push, if_pos (size_leaf1 0).symm] at *
    simp only [h1]
    exact Real.exp_zero

/-!
## Correctness of the depth-first post-order traversal

The invariant carried through `build_topo`: the post-order list is
duplicate-free, contained in the visited list, closed under children, and
never places a node after one of its parents; the visited nodes not yet in
the post-order list are exactly the recursion stack, and every stack entry
has a larger id than the node currently being visited.
-/

/-- Invariant tying the visited list `v` and the post-order list `t`. -/
def tInv (g : Graph) (v t : List Nat) : Prop :=
  t.Nodup ∧ (∀ x ∈ t, x ∈ v) ∧
  (∀ p ∈ t, ∀ c ∈ (g.node p).children, c ∈ t) ∧
  t.Pairwise (fun x y => y ∉ (g.node x).children)

/-- A children-closed list is closed under reachability. -/
theorem reach_closed (g : Graph) {t : List Nat}
    (hcl : ∀ p ∈ t, ∀ c ∈ (g.node p).children, c ∈ t) :
    ∀ i ∈ t, ∀ j, reaches g i j = true → j ∈ t := by
  intro i
  induction i using Nat.strong_induction_on with
  | _ i ih =>
      intro hi j hj
      rcases (reaches_iff g i j).1 hj with h | ⟨c, hc, hcj⟩
      · exact h ▸ hi
      · exact ih c (g.children_lt hc) (hcl i hi c hc) j hcj

/-- Everything `build_topo` guarantees about one call on node `i` from state
`(v, t)`. -/
def dfsPost (g : Graph) (i : Nat) (v t : List Nat) (st : List Nat × List Nat) : Prop :=
  (∀ j ∈ v, j ∈ st.1) ∧ i ∈ st.1 ∧ (∃ d, st.2 = t ++ d) ∧
  (∀ j, (j ∈ st.1 ∧ j ∉ st.2) ↔ (j ∈ v ∧ j ∉ t)) ∧
  tInv g st.1 st.2 ∧
  (∀ j, reaches g i j = true → j ∈ st.1) ∧
  (∀ j ∈ st.1, j ∈ v ∨ reaches g i j = true)

theorem btAux_main (g : Graph) : ∀ fuel i, i ≤ fuel → ∀ v t, tInv g v t →
    (∀ j ∈ v, j ∉ t → i < j) → dfsPost g i v t (btAux g fuel i (v, t)) := by
  intro fuel
  induction fuel with
  | zero =>
      intro i hi v t hinv hstk
      have hi0 : i = 0 := Nat.le_zero.mp hi
      subst hi0
      obtain ⟨hnd, hsub, hcl, hpw⟩ := hinv
      show dfsPost g 0 v t (if 0 ∈ v then (v, t) else (0 :: v, t ++ [0]))
      by_cases h0 : 0 ∈ v
      · rw [if_pos h0]
        have h0t : 0 ∈ t := by
          by_contra h0t
          exact absurd (hstk 0 h0 h0t) (by omega)
        refine ⟨fun j hj => hj, h0, ⟨[], by simp⟩, fun j => Iff.rfl,
          ⟨hnd, hsub, hcl, hpw⟩, ?_, fun j hj => Or.inl hj⟩
        intro j hj
        exact hsub j (reach_closed g hcl 0 h0t j hj)
      · rw [if_neg h0]
        have h0t : 0 ∉ t := fun h => h0 (hsub 0 h)
        have hr0 : ∀ j, reaches g 0 j = true → j = 0 := by
          intro j hj
          rcases (reaches_iff g 0 j).1 hj with h | ⟨c, hc, _⟩
          · omega
          · rw [g.children_node_zero] at hc
            exact absurd hc (List.not_mem_nil c)
        refine ⟨fun j hj => List.mem_cons_of_mem 0 hj, List.mem_cons_self 0 v,
          ⟨[0], rfl⟩, ?_, ?_, ?_, ?_⟩
        · intro j
          constructor
          · rintro ⟨hj1, hj2⟩
            rcases List.mem_cons.1 hj1 with h | h
            · exact absurd (by simp [h]) hj2
            · exact ⟨h, fun hjt => hj2 (by simp [hjt])⟩
          · rintro ⟨hj1, hj2⟩
            have hne : j ≠ 0 := by
              intro h
              exact absurd (hstk j hj1 hj2) (by omega)
            refine ⟨List.mem_cons_of_mem 0 hj1, ?_⟩
            simp only [List.mem_append, List.mem_singleton]
            rintro (h | h)
            · exact hj2 h
            · exact hne h
        · refine ⟨?_, ?_, ?_, ?_⟩
          · rw [List.nodup_append]
            exact ⟨hnd, List.nodup_singleton 0, fun a ha hb => by
              simp only [List.mem_singleton] at hb
              exact h0t (hb ▸ ha)⟩
          · intro x hx
            rcases List.mem_append.1 hx with h | h
            · exact List.mem_cons_of_mem 0 (hsub x h)
            · simp only [List.mem_singleton] at h
              exact h ▸ List.mem_cons_self 0 v
          · intro p hp c hc
            rcases List.mem_append.1 hp with h | h
            · exact List.mem_append_left _ (hcl p h c hc)
            · simp only [List.mem_singleton] at h
              subst h
              rw [g.children_node_zero] at hc
              exact absurd hc (List.not_mem_nil c)
          · rw [List.pairwise_append]
            refine ⟨hpw, List.pairwise_singleton _ 0, ?_⟩
            intro x hx y hy hmem
            simp only [List.mem_singleton] at hy
            subst hy
            exact h0t (hcl x hx 0 hmem)
        · intro j hj
          rw [hr0 j hj]
          exact List.mem_cons_self 0 v
        · intro j hj
          rcases List.mem_cons.1 hj with h | h
          · exact Or.inr (h ▸ reaches_self g 0)
          · exact Or.inl h
  | succ fuel ih =>
      intro i hi v t hinv hstk
      show dfsPost g i v t
        (if i ∈ v then (v, t)
         else
           (let st2 := (g.node i).children.foldl (fun s c => btAux g fuel c s)
              (i :: v, t)
            (st2.1, st2.2 ++ [i])))
      by_cases hiv : i ∈ v
      · rw [if_pos hiv]
        obtain ⟨hnd, hsub, hcl, hpw⟩ := hinv
        have hit : i ∈ t := by
          by_contra hit
          exact absurd (hstk i hiv hit) (by omega)
        refine ⟨fun j hj => hj, hiv, ⟨[], by simp⟩, fun j => Iff.rfl,
          ⟨hnd, hsub, hcl, hpw⟩, ?_, fun j hj => Or.inl hj⟩
        intro j hj
        exact hsub j (reach_closed g hcl i hit j hj)
      · rw [if_neg hiv]
        have hit : i ∉ t := fun h => hiv (hinv.2.1 i h)
        -- the fold over the children
        have fold_main : ∀ cs : List Nat, (∀ c ∈ cs, c < i) → ∀ v1 t1, tInv g v1 t1 →
            (∀ j ∈ v1, j ∉ t1 → i ≤ j) →
            ((∀ j ∈ v1, j ∈ (cs.foldl (fun s c => btAux g fuel c s) (v1, t1)).1) ∧
             (∀ c ∈ cs, c ∈ (cs.foldl (fun s c => btAux g fuel c s) (v1, t1)).1) ∧
             (∃ d, (cs.foldl (fun s c => btAux g fuel c s) (v1, t1)).2 = t1 ++ d) ∧
             (∀ j, (j ∈ (cs.foldl (fun s c => btAux g fuel c s) (v1, t1)).1 ∧
                    j ∉ (cs.foldl (fun s c => btAux g fuel c s) (v1, t1)).2) ↔
                   (j ∈ v1 ∧ j ∉ t1)) ∧
             tInv g (cs.foldl (fun s c => btAux g fuel c s) (v1, t1)).1
               (cs.foldl (fun s c => btAux g fuel c s) (v1, t1)).2 ∧
             (∀ c ∈ cs, ∀ j, reaches g c j = true →
                j ∈ (cs.foldl (fun s c => btAux g fuel c s) (v1, t1)).1) ∧
             (∀ j ∈ (cs.foldl (fun s c => btAux g fuel c s) (v1, t1)).1,
                j ∈ v1 ∨ ∃ c ∈ cs, reaches g c j = true)) := by
          intro cs
          induction cs with
          | nil =>
              intro _ v1 t1 hinv1 _
              simp only [List.foldl_nil]
              refine ⟨fun j hj => hj, ?_, ⟨[], by simp⟩, by simp, hinv1,
                ?_, fun j hj => Or.inl hj⟩
              · intro c hc
                exact absurd hc (List.not_mem_nil c)
              · intro c hc
                exact absurd hc (List.not_mem_nil c)
          | cons c cs ihc =>
              intro hlt v1 t1 hinv1 hstk1
              have hci : c < i := hlt c (List.mem_cons_self c cs)
              have hP := ih c (by omega) v1 t1 hinv1
                (fun j hj hjt => lt_of_lt_of_le hci (hstk1 j hj hjt))
              obtain ⟨p1, p2, ⟨d1, p3⟩, p4, p5, p6, p7⟩ := hP
              simp only [List.foldl_cons]
              have heq : btAux g fuel c (v1, t1) =
                  ((btAux g fuel c (v1, t1)).1, (btAux g fuel c (v1, t1)).2) := rfl
              rw [heq]
              have hQ := ihc (fun x hx => hlt x (List.mem_cons_of_mem c hx))
                (btAux g fuel c (v1, t1)).1 (btAux g fuel c (v1, t1)).2 p5
                (by
                  intro j hj hjt
                  have := (p4 j).1 ⟨hj, hjt⟩
                  exact hstk1 j this.1 this.2)
              obtain ⟨q1, q2, ⟨d2, q3⟩, q4, q5, q6, q7⟩ := hQ
              refine ⟨fun j hj => q1 j (p1 j hj),
                ?_, ⟨d1 ++ d2, by rw [q3, p3, List.append_assoc]⟩, ?_, q5, ?_, ?_⟩
              · intro x hx
                rcases List.mem_cons.1 hx with h | h
                · exact h ▸ q1 c p2
                · exact q2 x h
              · intro j
                rw [q4 j, p4 j]
              · intro x hx j hj
                rcases List.mem_cons.1 hx with h | h
                · exact q1 j (p6 j (h ▸ hj))
                · exact q6 x h j hj
              · intro j hj
                rcases q7 j hj with h | ⟨x, hx, hr⟩
                · rcases p7 j h with h2 | h2
                  · exact Or.inl h2
                  · exact Or.inr ⟨c, List.mem_cons_self c cs, h2⟩
                · exact Or.inr ⟨x, List.mem_cons_of_mem c hx, hr⟩
        have hstk2 : ∀ j ∈ i :: v, j ∉ t → i ≤ j := by
          intro j hj hjt
          rcases List.mem_cons.1 hj with h | h
          · omega
          · exact Nat.le_of_lt (hstk j h hjt)
        have hinv2 : tInv g (i :: v) t := by
          obtain ⟨hnd, hsub, hcl, hpw⟩ := hinv
          exact ⟨hnd, fun x hx => List.mem_cons_of_mem i (hsub x hx), hcl, hpw⟩
        have hF := fold_main (g.node i).children (fun c hc => g.children_lt hc)
          (i :: v) t hinv2 hstk2
        set st2 := (g.node i).children.foldl (fun s c => btAux g fuel c s) (i :: v, t)
          with hst2
        obtain ⟨f1, f2, ⟨d, f3⟩, f4, f5, f6, f7⟩ := hF
        have hi_st : i ∈ st2.1 := f1 i (List.mem_cons_self i v)
        have hi_not_t2 : i ∉ st2.2 := by
          have := (f4 i).2 ⟨List.mem_cons_self i v, hit⟩
          exact this.2
        have hch_in_t2 : ∀ c ∈ (g.node i).children, c ∈ st2.2 := by
          intro c hc
          have hcst : c ∈ st2.1 := f2 c hc
          by_contra hct
          have := (f4 c).1 ⟨hcst, hct⟩
          rcases List.mem_cons.1 this.1 with h | h
          · exact absurd h (by have := g.children_lt hc; omega)
          · exact absurd (hstk c h this.2) (by have := g.children_lt hc; omega)
        obtain ⟨fnd, fsub, fcl, fpw⟩ := f5
        refine ⟨?_, ?_, ?_, ?_, ?_, ?_, ?_⟩
        · intro j hj
          exact f1 j (List.mem_cons_of_mem i hj)
        · exact hi_st
        · exact ⟨d ++ [i], by simp only [f3, List.append_assoc]⟩
        · intro j
          constructor
          · rintro ⟨hj1, hj2⟩
            have hj2a : j ∉ st2.2 := fun h => hj2 (List.mem_append_left _ h)
            have hne : j ≠ i := by
              intro h
              exact hj2 (by simp [h])
            have := (f4 j).1 ⟨hj1, hj2a⟩
            rcases List.mem_cons.1 this.1 with h | h
            · exact absurd h hne
            · exact ⟨h, this.2⟩
          · rintro ⟨hj1, hj2⟩
            have hne : j ≠ i := fun h => hiv (h ▸ hj1)
            have := (f4 j).2 ⟨List.mem_cons_of_mem i hj1, hj2⟩
            refine ⟨this.1, ?_⟩
            simp only [List.mem_append, List.mem_singleton]
            rintro (h | h)
            · exact this.2 h
            · exact hne h
        · refine ⟨?_, ?_, ?_, ?_⟩
          · rw [List.nodup_append]
            exact ⟨fnd, List.nodup_singleton i, fun a ha hb => by
              simp only [List.mem_singleton] at hb
              exact hi_not_t2 (hb ▸ ha)⟩
          · intro x hx
            rcases List.mem_append.1 hx with h | h
            · exact fsub x h
            · simp only [List.mem_singleton] at h
              exact h ▸ hi_st
          · intro p hp c hc
            rcases List.mem_append.1 hp with h | h
            · exact List.mem_append_left _ (fcl p h c hc)
            · simp only [List.mem_singleton] at h
              subst h
              exact List.mem_append_left _ (hch_in_t2 c hc)
          · rw [List.pairwise_append]
            refine ⟨fpw, List.pairwise_singleton _ i, ?_⟩
            intro x hx y hy hmem
            simp only [List.mem_singleton] at hy
            exact hi_not_t2 (hy ▸ fcl x hx y hmem)
        · intro j hj
          rcases (reaches_iff g i j).1 hj with h | ⟨c, hc, hcj⟩
          · exact h ▸ hi_st
          · exact f6 c hc j hcj
        · intro j hj
          rcases f7 j hj with h | ⟨c, hc, hr⟩
          · rcases List.mem_cons.1 h with h2 | h2
            · exact Or.inr (h2 ▸ reaches_self g i)
            · exact Or.inl h2
          · exact Or.inr (reaches_trans g i c j (reaches_of_child g hc) hr)

/-- The specification of the internally built forward topological order:
it lists exactly the nodes reachable from the root, once each, closed under
children, and never places a node after one of its parents. -/
theorem topoList_spec (g : Graph) (root : Nat) :
    (∀ j, j ∈ topoList g root ↔ reaches g root j = true) ∧
    (topoList g root).Nodup ∧
    (∀ p ∈ topoList g root, ∀ c ∈ (g.node p).children, c ∈ topoList g root) ∧
    (topoList g root).Pairwise (fun x y => y ∉ (g.node x).children) := by
  have h := btAux_main g root root (le_refl root) [] []
    ⟨List.nodup_nil, by simp, by simp, List.Pairwise.nil⟩
    (by simp)
  obtain ⟨p1, p2, p3, p4, ⟨hnd, hsub, hcl, hpw⟩, p6, p7⟩ := h
  have hmem : ∀ j, j ∈ topoList g root ↔ reaches g root j = true := by
    intro j
    constructor
    · intro hj
      rcases p7 j (hsub j hj) with h | h
      · exact absurd h (List.not_mem_nil j)
      · exact h
    · intro hj
      have hj1 := p6 j hj
      by_contra hj2
      have := (p4 j).1 ⟨hj1, hj2⟩
      exact absurd this.1 (List.not_mem_nil j)
  exact ⟨hmem, hnd, hcl, hpw⟩

/-- C5.  The forward topological order built inside `Value.backprop` contains
exactly the reachable nodes, each exactly once, and for every operand edge
places the child strictly before the parent (equivalently, in the reversed
order in which the backward rules run, a parent's rule runs before its
operands' rules). -/
theorem C5_topological_order (g : Graph) (root : Nat) :
    (∀ j, j ∈ topoList g root ↔ reaches g root j = true) ∧
    (topoList g root).Nodup ∧
    (∀ k l : Fin (topoList g root).length,
      (topoList g root).get k ∈ (g.node ((topoList g root).get l)).children →
      (k : Nat) < (l : Nat)) := by
  obtain ⟨hmem, hnd, hcl, hpw⟩ := topoList_spec g root
  refine ⟨hmem, hnd, ?_⟩
  intro k l hchild
  rcases Nat.lt_trichotomy (k : Nat) (l : Nat) with h | h | h
  · exact h
  · exfalso
    have hkl : (topoList g root).get k = (topoList g root).get l := by
      congr 1
      exact Fin.ext h
    rw [hkl] at hchild
    exact absurd (g.children_lt hchild) (by omega)
  · exfalso
    have := (List.pairwise_iff_get.1 hpw) l k (by omega)
    exact this hchild

/-- Witness for C5 on `z = x * y`: leaf x sits at position 0 of the order,
its consumer z at position 2, and x is indeed an operand of z. -/
theorem C5_witness :
    ((topoList chainG 2).get ⟨0, by decide⟩ ∈
      (chainG.node ((topoList chainG 2).get ⟨2, by decide⟩)).children) ∧
    (0 : Nat) < 2 := by
  have hm : (topoList chainG 2).get ⟨0, by decide⟩ ∈
      (chainG.node ((topoList chainG 2).get ⟨2, by decide⟩)).children := by decide
  exact ⟨hm, (C5_topological_order chainG 2).2.2 ⟨0, by decide⟩ ⟨2, by decide⟩ hm⟩

/-!
## The chain-rule adjoint and the correctness of the backward pass
-/

/-- The parents of `j`: the nodes whose operand set contains `j`. -/
def parentsList (g : Graph) (j : Nat) : List Nat :=
  (List.range g.size).filter (fun p => j ∈ (g.node p).children)

theorem parentsList_mem (g : Graph) (j p : Nat) :
    p ∈ parentsList g j ↔ p < g.size ∧ j ∈ (g.node p).children := by
  simp [parentsList, List.mem_filter, List.mem_range]

theorem parentsList_nodup (g : Graph) (j : Nat) : (parentsList g j).Nodup :=
  (List.nodup_range g.size).filter _

theorem parentsList_gt (g : Graph) {j p : Nat} (h : p ∈ parentsList g j) : j < p :=
  g.children_lt ((parentsList_mem g j p).1 h).2

theorem parentsList_nil_of_ge (g : Graph) {j : Nat} (hj : g.size ≤ j) :
    parentsList g j = [] := by
  apply List.eq_nil_iff_forall_not_mem.2
  intro p hp
  obtain ⟨hps, hpc⟩ := (parentsList_mem g j p).1 hp
  have := g.children_lt hpc
  omega

/-- Fuelled adjoint recurrence: the gradient accumulator value the backward
pass leaves on node `j`, characterized by the chain rule over `j`'s reachable
parents, on top of the initial state `h` (with the root's accumulator
overwritten to 1). -/
noncomputable def adjAux (g : Graph) (root : Nat) (h : Nat → Real) :
    Nat → Nat → Real
  | 0, j => if j = root then 1 else h j
  | fuel + 1, j =>
      (if j = root then 1 else h j) +
      ((parentsList g j).map
        (fun p => if reaches g root p = true then slot g p j * adjAux g root h fuel p
          else 0)).sum

theorem adjAux_irrel (g : Graph) (root : Nat) (h : Nat → Real) :
    ∀ f1 f2 j, g.size ≤ f1 + j → g.size ≤ f2 + j → adjAux g root h f1 j = adjAux g root h f2 j := by
  intro f1
  induction f1 with
  | zero =>
      intro f2 j h1 h2
      have hnil : parentsList g j = [] := parentsList_nil_of_ge g (by omega)
      cases f2 with
      | zero => rfl
      | succ f2 => simp [adjAux, hnil]
  | succ f1 ih =>
      intro f2 j h1 h2
      cases f2 with
      | zero =>
          have hnil : parentsList g j = [] := parentsList_nil_of_ge g (by omega)
          simp [adjAux, hnil]
      | succ f2 =>
          simp only [adjAux]
          congr 1
          congr 1
          apply map_congr_mem
          intro p hp
          have hjp : j < p := parentsList_gt g hp
          rw [ih f2 p (by omega) (by omega)]

/-- The adjoint at its canonical fuel. -/
noncomputable def adjGrad (g : Graph) (root : Nat) (h : Nat → Real) (j : Nat) : Real :=
  adjAux g root h g.size j

theorem adjGrad_rec (g : Graph) (root : Nat) (h : Nat → Real) (j : Nat) :
    adjGrad g root h j =
      (if j = root then 1 else h j) +
      ((parentsList g j).map
        (fun p => if reaches g root p = true then slot g p j * adjGrad g root h p
          else 0)).sum := by
  unfold adjGrad
  rw [adjAux_irrel g root h g.size (g.size + 1) j (by omega) (by omega)]
  rfl

theorem reaches_false_of_gt (g : Graph) {root p : Nat} (h : root < p) :
    reaches g root p = false := by
  by_contra hc
  have : reaches g root p = true := by
    cases hr : reaches g root p
    · exact absurd hr hc
    · rfl
  exact absurd (reaches_le g root p this) (by omega)

/-- The backward pass always leaves the root's own accumulator at exactly 1:
the root has no reachable parents. -/
theorem adjGrad_root (g : Graph) (root : Nat) (h : Nat → Real) :
    adjGrad g root h root = 1 := by
  rw [adjGrad_rec, if_pos rfl]
  have hz : ((parentsList g root).map
      (fun p => if reaches g root p = true then slot g p root * adjGrad g root h p
        else 0)).sum = 0 := by
    apply List.sum_eq_zero
    intro x hx
    rcases List.mem_map.1 hx with ⟨p, hp, hpx⟩
    have hrp : root < p := parentsList_gt g hp
    rw [reaches_false_of_gt g hrp] at hpx
    simpa using hpx.symm
  rw [hz]
  ring

theorem slot_eq_zero_of_not_child (g : Graph) (p c : Nat)
    (hOK : ruleOK (g.node p) p) (h : c ∉ (g.node p).children) : slot g p c = 0 := by
  obtain ⟨ho, hc, htag⟩ := hOK
  unfold slot
  cases hr : (g.node p).rule <;> rw [hr] at hc <;>
    simp only [BackRule.operands] at hc
  case addR a b o =>
    have hca : a ≠ c ∧ b ≠ c := by
      rw [hc] at h
      by_cases hab : a = b
      · rw [if_pos hab] at h
        simp only [List.mem_singleton] at h
        constructor <;> (intro he; exact h (by omega))
      · rw [if_neg hab] at h
        simp only [List.mem_cons, List.mem_singleton] at h
        push_neg at h
        constructor <;> (intro he; exact absurd he.symm (by tauto))
    show ((if a = c then (1 : Real) else 0) + if b = c then (1 : Real) else 0) = 0
    rw [if_neg hca.1, if_neg hca.2]
    ring
  case mulR a b o =>
    have hca : a ≠ c ∧ b ≠ c := by
      rw [hc] at h
      by_cases hab : a = b
      · rw [if_pos hab] at h
        simp only [List.mem_singleton] at h
        constructor <;> (intro he; exact h (by omega))
      · rw [if_neg hab] at h
        simp only [List.mem_cons, List.mem_singleton] at h
        push_neg at h
        constructor <;> (intro he; exact absurd he.symm (by tauto))
    show ((if a = c then (g.node b).val else 0) + if b = c then (g.node a).val else 0) = 0
    rw [if_neg hca.1, if_neg hca.2]
    ring
  case powR a k o =>
    rw [hc] at h
    simp only [List.mem_singleton] at h
    show (if a = c then k * Real.rpow ((g.node a).val) (k - 1) else 0) = 0
    rw [if_neg (fun he => h he.symm)]
  case tanhR a v o =>
    rw [hc] at h
    simp only [List.mem_singleton] at h
    show (if a = c then 1 - v ^ 2 else 0) = 0
    rw [if_neg (fun he => h he.symm)]
  case reluR a v o =>
    rw [hc] at h
    simp only [List.mem_singleton] at h
    show (if a = c then (if v > 0 then (1 : Real) else 0) else 0) = 0
    rw [if_neg (fun he => h he.symm)]
  case expR a o =>
    rw [hc] at h
    simp only [List.mem_singleton] at h
    show (if a = c then (g.node o).val else 0) = 0
    rw [if_neg (fun he => h he.symm)]

/-- An accumulating backward closure adds exactly `s p * slot g p c` into
each accumulator `c` (covering also the aliased case `a = b`, where the two
sequential `+=` statements both hit the same operand). -/
theorem applyRule_spec (g : Graph) (p : Nat) (hOK : ruleOK (g.node p) p)
    (hacc : (g.node p).rule.isAcc = true) (s : Nat → Real) (c : Nat) :
    applyRule g s p c = s c + s p * slot g p c := by
  obtain ⟨ho, hch, htag⟩ := hOK
  unfold applyRule slot
  cases hr : (g.node p).rule
  case noneR =>
    show s c = s c + s p * 0
    ring
  case absR a o =>
    rw [hr] at hacc
    simp [BackRule.isAcc] at hacc
  case sigR a v o =>
    rw [hr] at hacc
    simp [BackRule.isAcc] at hacc
  case addR a b o =>
    rw [hr] at ho hch
    have hop : o = p := ho
    have hch2 : (g.node p).children = if a = b then [a] else [a, b] := hch
    have hap : a < p := g.children_lt (by
      rw [hch2]; by_cases hab : a = b <;> simp [hab])
    have hbp : b < p := g.children_lt (by
      rw [hch2]; by_cases hab : a = b <;> simp [hab])
    have hpa : p ≠ a := by omega
    show Function.update (Function.update s a (s a + s o)) b
        (Function.update s a (s a + s o) b + Function.update s a (s a + s o) o) c
      = s c + s p * ((if a = c then (1 : Real) else 0) + (if b = c then (1 : Real) else 0))
    rw [hop, Function.update_noteq hpa]
    by_cases hcb : c = b
    · subst hcb
      rw [Function.update_same]
      by_cases hba : c = a
      · rw [hba, Function.update_same, if_pos rfl]
        ring
      · rw [Function.update_noteq hba, if_neg (fun h => hba h.symm), if_pos rfl]
        ring
    · rw [Function.update_noteq hcb]
      by_cases hca : c = a
      · have hba2 : b ≠ a := fun h => hcb (hca.trans h.symm)
        rw [hca, Function.update_same, if_pos rfl, if_neg hba2]
        ring
      · rw [Function.update_noteq hca, if_neg (fun h => hca h.symm),
          if_neg (fun h => hcb h.symm)]
        ring
  case mulR a b o =>
    rw [hr] at ho hch
    have hop : o = p := ho
    have hch2 : (g.node p).children = if a = b then [a] else [a, b] := hch
    have hap : a < p := g.children_lt (by
      rw [hch2]; by_cases hab : a = b <;> simp [hab])
    have hbp : b < p := g.children_lt (by
      rw [hch2]; by_cases hab : a = b <;> simp [hab])
    have hpa : p ≠ a := by omega
    show Function.update (Function.update s a (s a + (g.node b).val * s o)) b
        (Function.update s a (s a + (g.node b).val * s o) b +
          (g.node a).val * Function.update s a (s a + (g.node b).val * s o) o) c
      = s c + s p *
        ((if a = c then (g.node b).val else 0) + (if b = c then (g.node a).val else 0))
    rw [hop, Function.update_noteq hpa]
    by_cases hcb : c = b
    · subst hcb
      rw [Function.update_same]
      by_cases hba : c = a
      · rw [hba, Function.update_same, if_pos rfl]
        ring
      · rw [Function.update_noteq hba, if_neg (fun h => hba h.symm), if_pos rfl]
        ring
    · rw [Function.update_noteq hcb]
      by_cases hca : c = a
      · have hba2 : b ≠ a := fun h => hcb (hca.trans h.symm)
        rw [hca, Function.update_same, if_pos rfl, if_neg hba2]
        ring
      · rw [Function.update_noteq hca, if_neg (fun h => hca h.symm),
          if_neg (fun h => hcb h.symm)]
        ring
  case powR a k o =>
    rw [hr] at ho hch
    have hop : o = p := ho
    have hch2 : (g.node p).children = [a] := hch
    have hap : a < p := g.children_lt (by rw [hch2]; simp)
    show Function.update s a (s a + k * Real.rpow ((g.node a).val) (k - 1) * s o) c
      = s c + s p * (if a = c then k * Real.rpow ((g.node a).val) (k - 1) else 0)
    rw [hop]
    by_cases hca : c = a
    · rw [hca, Function.update_same, if_pos rfl]
      ring
    · rw [Function.update_noteq hca, if_neg (fun h => hca h.symm)]
      ring
  case tanhR a v o =>
    rw [hr] at ho hch
    have hop : o = p := ho
    have hch2 : (g.node p).children = [a] := hch
    have hap : a < p := g.children_lt (by rw [hch2]; simp)
    show Function.update s a (s a + (1 - v ^ 2) * s o) c
      = s c + s p * (if a = c then 1 - v ^ 2 else 0)
    rw [hop]
    by_cases hca : c = a
    · rw [hca, Function.update_same, if_pos rfl]
      ring
    · rw [Function.update_noteq hca, if_neg (fun h => hca h.symm)]
      ring
  case reluR a v o =>
    rw [hr] at ho hch
    have hop : o = p := ho
    have hch2 : (g.node p).children = [a] := hch
    have hap : a < p := g.children_lt (by rw [hch2]; simp)
    show Function.update s a (s a + (if v > 0 then (1 : Real) else 0) * s o) c
      = s c + s p * (if a = c then (if v > 0 then (1 : Real) else 0) else 0)
    rw [hop]
    by_cases hca : c = a
    · rw [hca, Function.update_same, if_pos rfl]
      ring
    · rw [Function.update_noteq hca, if_neg (fun h => hca h.symm)]
      ring
  case expR a o =>
    rw [hr] at ho hch
    have hop : o = p := ho
    have hch2 : (g.node p).children = [a] := hch
    have hap : a < p := g.children_lt (by rw [hch2]; simp)
    show Function.update s a (s a + (g.node o).val * s o) c
      = s c + s p * (if a = c then (g.node o).val else 0)
    rw [hop]
    by_cases hca : c = a
    · rw [hca, Function.update_same, if_pos rfl]
      ring
    · rw [Function.update_noteq hca, if_neg (fun h => hca h.symm)]
      ring

theorem slot_child_of_ne_zero (g : Graph) {p c : Nat} (hOK : ruleOK (g.node p) p)
    (h : slot g p c ≠ 0) : c ∈ (g.node p).children := by
  by_contra hc
  exact h (slot_eq_zero_of_not_child g p c hOK hc)

/-- The master theorem for the backward pass: started from any gradient state
`h`, `backprop` leaves every node reachable from the root with the value of
the chain-rule adjoint recurrence `adjGrad` (initial state `h`, root
overwritten to 1), and every other node untouched — provided every node is
builder-shaped and every reachable backward rule accumulates. -/
theorem backprop_master (g : Graph) (root : Nat) (h : Nat → Real) (hrw : ruleWF g)
    (hacc : accReach g root) (hroot : root < g.size) (j : Nat) :
    backprop g root h j =
      if reaches g root j = true then adjGrad g root h j else h j := by
  obtain ⟨hmem, hnd, hcl, hpw⟩ := topoList_spec g root
  have hRnd : (topoList g root).reverse.Nodup := List.nodup_reverse.2 hnd
  have hRmem : ∀ x, x ∈ (topoList g root).reverse ↔ reaches g root x = true := by
    intro x
    rw [List.mem_reverse]
    exact hmem x
  have hRpw : (topoList g root).reverse.Pairwise (fun x y => x ∉ (g.node y).children) :=
    List.pairwise_reverse.2 hpw
  set R := (topoList g root).reverse with hRdef
  have hsize : ∀ x ∈ R, x < g.size := fun x hx =>
    lt_of_le_of_lt (reaches_le g root x ((hRmem x).1 hx)) hroot
  have hOKx : ∀ x ∈ R, ruleOK (g.node x) x := fun x hx => hrw x (hsize x hx)
  have haccx : ∀ x ∈ R, (g.node x).rule.isAcc = true := fun x hx =>
    hacc x (reaches_le g root x ((hRmem x).1 hx)) ((hRmem x).1 hx)
  set s0 := Function.update h root 1 with hs0def
  have sum_core : ∀ (L : List Nat) (x : Nat), L.Nodup → (∀ q ∈ L, q ∈ R) →
      (∀ q, q ∈ parentsList g x → reaches g root q = true → q ∈ L) →
      (L.map (fun q => adjGrad g root h q * slot g q x)).sum =
        ((parentsList g x).map
          (fun q => if reaches g root q = true then slot g q x * adjGrad g root h q
            else 0)).sum := by
    intro L x hLnd hLR hLpar
    rw [← List.sum_toFinset _ hLnd, ← List.sum_toFinset _ (parentsList_nodup g x),
      ← Finset.sum_filter]
    rw [← List.toFinset_filter]
    have hcomm : ∑ q ∈ ((parentsList g x).filter
        (fun q => reaches g root q)).toFinset, slot g q x * adjGrad g root h q =
        ∑ q ∈ ((parentsList g x).filter
          (fun q => reaches g root q)).toFinset, adjGrad g root h q * slot g q x :=
      Finset.sum_congr rfl (fun q _ => mul_comm _ _)
    rw [hcomm]
    symm
    apply Finset.sum_subset
    · intro q hq
      rw [List.mem_toFinset, List.mem_filter] at hq
      rw [List.mem_toFinset]
      exact hLpar q hq.1 (by simpa using hq.2)
    · intro q hqL hqP
      rw [List.mem_toFinset] at hqL
      have hqR : q ∈ R := hLR q hqL
      have hqreach : reaches g root q = true := (hRmem q).1 hqR
      rw [List.mem_toFinset, List.mem_filter] at hqP
      have hqnp : q ∉ parentsList g x := by
        intro hqp
        exact hqP ⟨hqp, by simpa using hqreach⟩
      have hxnc : x ∉ (g.node q).children := by
        intro hxc
        exact hqnp ((parentsList_mem g x q).2 ⟨hsize q hqR, hxc⟩)
      rw [slot_eq_zero_of_not_child g q x (hOKx q hqR) hxnc]
      ring
  have INV : ∀ k, k ≤ R.length → ∀ c,
      ((R.take k).foldl (applyRule g) s0) c
        = s0 c + ((R.take k).map (fun q => adjGrad g root h q * slot g q c)).sum := by
    intro k
    induction k with
    | zero =>
        intro _ c
        simp
    | succ k ihk =>
        intro hk c
        have hkR : k < R.length := by omega
        have htake : R.take (k + 1) = R.take k ++ [R.get ⟨k, hkR⟩] := by
          rw [List.take_succ, List.getElem?_eq_getElem hkR]
          rfl
        have hpR : R.get ⟨k, hkR⟩ ∈ R := List.get_mem R k hkR
        have htksub : ∀ q ∈ R.take k, q ∈ R := fun q hq => List.mem_of_mem_take hq
        have htknd : (R.take k).Nodup := (List.take_sublist k R).nodup hRnd
        have hpar : ∀ q, q ∈ parentsList g (R.get ⟨k, hkR⟩) →
            reaches g root q = true → q ∈ R.take k := by
          intro q hq hqr
          have hqR : q ∈ R := (hRmem q).2 hqr
          rcases List.mem_iff_get.1 hqR with ⟨m, hm⟩
          have hchild : R.get ⟨k, hkR⟩ ∈ (g.node q).children :=
            ((parentsList_mem g _ q).1 hq).2
          have hm_lt : (m : Nat) < k := by
            rcases Nat.lt_trichotomy (m : Nat) k with hmk | hmk | hmk
            · exact hmk
            · exfalso
              have hqp : q = R.get ⟨k, hkR⟩ := by
                rw [← hm]
                congr 1
                exact Fin.ext hmk
              rw [hqp] at hchild
              exact absurd (g.children_lt hchild) (by omega)
            · exfalso
              have hrel := (List.pairwise_iff_get.1 hRpw) ⟨k, hkR⟩ m (by
                show (k : Nat) < (m : Nat)
                omega)
              rw [hm] at hrel
              exact hrel hchild
          have hlen : (m : Nat) < (R.take k).length := by
            rw [List.length_take]
            omega
          have hget : (R.take k).get ⟨m, hlen⟩ = R.get m := by
            simp [List.get_take]
          have : (R.take k).get ⟨m, hlen⟩ = q := by rw [hget, hm]
          rw [← this]
          exact List.get_mem _ _ _
        have hsp : ((R.take k).foldl (applyRule g) s0) (R.get ⟨k, hkR⟩)
            = adjGrad g root h (R.get ⟨k, hkR⟩) := by
          rw [ihk (by omega) _]
          rw [sum_core (R.take k) (R.get ⟨k, hkR⟩) htknd htksub hpar]
          rw [adjGrad_rec g root h (R.get ⟨k, hkR⟩)]
          congr 1
          rw [hs0def, Function.update_apply]
        rw [htake, List.foldl_append]
        simp only [List.foldl_cons, List.foldl_nil]
        rw [applyRule_spec g (R.get ⟨k, hkR⟩) (hOKx _ hpR) (haccx _ hpR) _ c]
        rw [ihk (by omega) c, hsp, List.map_append, List.sum_append]
        simp only [List.map_cons, List.map_nil, List.sum_cons, List.sum_nil]
        ring
  have hfin := INV R.length (le_refl _) j
  rw [List.take_length] at hfin
  have hback : backprop g root h j = (R.foldl (applyRule g) s0) j := rfl
  rw [hback, hfin]
  by_cases hj : reaches g root j = true
  · rw [if_pos hj]
    have hparR : ∀ q, q ∈ parentsList g j → reaches g root q = true → q ∈ R :=
      fun q _ hqr => (hRmem q).2 hqr
    rw [sum_core R j hRnd (fun q hq => hq) hparR]
    rw [adjGrad_rec g root h j]
    congr 1
    rw [hs0def, Function.update_apply]
  · rw [if_neg hj]
    have hjr : j ≠ root := fun he => hj (he ▸ reaches_self g root)
    have hz : (R.map (fun q => adjGrad g root h q * slot g q j)).sum = 0 := by
      apply List.sum_eq_zero
      intro x hx
      rcases List.mem_map.1 hx with ⟨q, hq, hqx⟩
      have hsl : slot g q j = 0 := by
        by_contra hsl
        have hjc : j ∈ (g.node q).children := slot_child_of_ne_zero g (hOKx q hq) hsl
        exact hj (reaches_trans g root q j ((hRmem q).1 hq) (reaches_of_child g hjc))
      rw [hsl] at hqx
      rw [← hqx]
      ring
    rw [hz, hs0def, Function.update_noteq hjr]
    ring

/-!
## The total derivative as an explicit sum over paths

A path from the root down to `j` is stored reversed, as
`[j, parent, …, root]`; its weight is the product of the per-edge local
derivatives (`slot`).  Summing the weights of all such paths is the spec's
"total derivative of the root with respect to the node, summed over all
paths by the chain rule".
-/

/-- All operand-edge walks from `j` up to the root, each stored as
`j :: … :: root`. -/
def upPaths (g : Graph) (root : Nat) : Nat → Nat → List (List Nat)
  | 0, j => if j = root then [[j]] else []
  | fuel + 1, j =>
      (if j = root then [[j]] else []) ++
      ((parentsList g j).map
        (fun p => (upPaths g root fuel p).map (fun w => j :: w))).join

/-- The product of the local derivatives along a reversed root-to-node
path. -/
noncomputable def pathWeight (g : Graph) : List Nat → Real
  | [] => 1
  | [_] => 1
  | c :: p :: rest => slot g p c * pathWeight g (p :: rest)

/-- The chain-rule total derivative of the root with respect to node `j`:
the sum, over all paths from the root to `j`, of the product of local
derivatives along the path. -/
noncomputable def totalDeriv (g : Graph) (root j : Nat) : Real :=
  ((upPaths g root g.size j).map (pathWeight g)).sum

theorem upPaths_head (g : Graph) (root : Nat) :
    ∀ fuel j w, w ∈ upPaths g root fuel j → ∃ rest, w = j :: rest := by
  intro fuel
  induction fuel with
  | zero =>
      intro j w hw
      by_cases hj : j = root
      · rw [upPaths, if_pos hj] at hw
        simp only [List.mem_singleton] at hw
        exact ⟨[], hw⟩
      · rw [upPaths, if_neg hj] at hw
        exact absurd hw (List.not_mem_nil w)
  | succ fuel ih =>
      intro j w hw
      rw [upPaths] at hw
      rcases List.mem_append.1 hw with h | h
      · by_cases hj : j = root
        · rw [if_pos hj] at h
          simp only [List.mem_singleton] at h
          exact ⟨[], h⟩
        · rw [if_neg hj] at h
          exact absurd h (List.not_mem_nil w)
      · rcases List.mem_join.1 h with ⟨l, hl, hwl⟩
        rcases List.mem_map.1 hl with ⟨p, hp, hpl⟩
        rw [← hpl] at hwl
        rcases List.mem_map.1 hwl with ⟨w2, hw2, hw2e⟩
        exact ⟨w2, hw2e.symm⟩

theorem upPaths_irrel (g : Graph) (root : Nat) :
    ∀ f1 f2 j, g.size ≤ f1 + j → g.size ≤ f2 + j →
      upPaths g root f1 j = upPaths g root f2 j := by
  intro f1
  induction f1 with
  | zero =>
      intro f2 j h1 h2
      have hnil : parentsList g j = [] := parentsList_nil_of_ge g (by omega)
      cases f2 with
      | zero => rfl
      | succ f2 => simp [upPaths, hnil]
  | succ f1 ih =>
      intro f2 j h1 h2
      cases f2 with
      | zero =>
          have hnil : parentsList g j = [] := parentsList_nil_of_ge g (by omega)
          simp [upPaths, hnil]
      | succ f2 =>
          simp only [upPaths]
          congr 1
          congr 1
          apply map_congr_mem
          intro p hp
          have hjp : j < p := parentsList_gt g hp
          rw [ih f2 p (by omega) (by omega)]

theorem totalDeriv_rec (g : Graph) (root j : Nat) :
    totalDeriv g root j =
      (if j = root then 1 else 0) +
      ((parentsList g j).map (fun p => slot g p j * totalDeriv g root p)).sum := by
  unfold totalDeriv
  rw [upPaths_irrel g root g.size (g.size + 1) j (by omega) (by omega)]
  show ((((if j = root then [[j]] else []) ++
      ((parentsList g j).map
        (fun p => (upPaths g root g.size p).map (fun w => j :: w))).join)).map
      (pathWeight g)).sum = _
  rw [List.map_append, List.sum_append]
  congr 1
  · by_cases hj : j = root
    · rw [if_pos hj, if_pos hj]
      show pathWeight g [j] + 0 = 1
      rw [pathWeight]
      ring
    · rw [if_neg hj, if_neg hj]
      rfl
  · rw [List.map_join, List.sum_join, List.map_map, List.map_map]
    congr 1
    apply map_congr_mem
    intro p hp
    show (((upPaths g root g.size p).map (fun w => j :: w)).map (pathWeight g)).sum
      = slot g p j * totalDeriv g root p
    rw [List.map_map]
    have hcong : ((upPaths g root g.size p).map (pathWeight g ∘ (fun w => j :: w)))
        = ((upPaths g root g.size p).map (fun w => slot g p j * pathWeight g w)) := by
      apply map_congr_mem
      intro w hw
      obtain ⟨rest, hrest⟩ := upPaths_head g root g.size p w hw
      subst hrest
      rfl
    rw [hcong, List.sum_map_mul_left]
    rfl

theorem reaches_eq_false (g : Graph) {root j : Nat} (h : ¬ reaches g root j = true) :
    reaches g root j = false := by
  cases hr : reaches g root j
  · rfl
  · exact absurd hr h

theorem totalDeriv_main (g : Graph) (root : Nat) :
    ∀ d j, g.size - j ≤ d →
      (reaches g root j = false → totalDeriv g root j = 0) ∧
      adjGrad g root zeroGrad j = totalDeriv g root j := by
  intro d
  induction d with
  | zero =>
      intro j hd
      have hnil : parentsList g j = [] := parentsList_nil_of_ge g (by omega)
      constructor
      · intro hjr
        have hjroot : j ≠ root := by
          intro he
          rw [he, reaches_self] at hjr
          exact absurd hjr (by simp)
        rw [totalDeriv_rec, hnil, if_neg hjroot]
        simp
      · rw [adjGrad_rec, totalDeriv_rec, hnil]
        simp [zeroGrad]
  | succ d ihd =>
      intro j hd
      have hsub : ∀ p, p ∈ parentsList g j → g.size - p ≤ d := by
        intro p hp
        have := parentsList_gt g hp
        omega
      have hunr : reaches g root j = false → ∀ p ∈ parentsList g j,
          reaches g root p = false := by
        intro hjr p hp
        apply reaches_eq_false
        intro hpr
        have hjc : j ∈ (g.node p).children := ((parentsList_mem g j p).1 hp).2
        have : reaches g root j = true :=
          reaches_trans g root p j hpr (reaches_of_child g hjc)
        rw [this] at hjr
        exact absurd hjr (by simp)
      constructor
      · intro hjr
        have hjroot : j ≠ root := by
          intro he
          rw [he, reaches_self] at hjr
          exact absurd hjr (by simp)
        rw [totalDeriv_rec, if_neg hjroot]
        have hz : ((parentsList g j).map (fun p => slot g p j * totalDeriv g root p)).sum
            = 0 := by
          apply List.sum_eq_zero
          intro x hx
          rcases List.mem_map.1 hx with ⟨p, hp, hpx⟩
          rw [(ihd p (hsub p hp)).1 (hunr hjr p hp)] at hpx
          rw [← hpx]
          ring
        rw [hz]
        ring
      · rw [adjGrad_rec, totalDeriv_rec]
        have hbase : (if j = root then (1 : Real) else zeroGrad j)
            = (if j = root then (1 : Real) else 0) := by
          by_cases hj : j = root <;> simp [hj, zeroGrad]
        rw [hbase]
        congr 1
        congr 1
        apply map_congr_mem
        intro p hp
        cases hpr : reaches g root p
        · rw [(ihd p (hsub p hp)).1 hpr]
          simp
        · rw [if_pos rfl, (ihd p (hsub p hp)).2]

/-- C1.  On a graph whose reachable nodes all carry accumulating backward
rules (add, multiply, power, tanh, relu, exponential, or leaves), and with
every gradient accumulator 0 before the call, `backprop` sets every node —
the root included, whose accumulator becomes 1 — to the total derivative of
the root with respect to that node, summed over all root-to-node paths by
the chain rule (`totalDeriv`); unreachable nodes keep their 0. -/
theorem C1_backprop_is_total_derivative (g : Graph) (root : Nat) (hrw : ruleWF g)
    (hacc : accReach g root) (hroot : root < g.size) :
    (∀ j, backprop g root zeroGrad j = totalDeriv g root j) ∧
    totalDeriv g root root = 1 := by
  have hmain : ∀ j, (reaches g root j = false → totalDeriv g root j = 0) ∧
      adjGrad g root zeroGrad j = totalDeriv g root j :=
    fun j => totalDeriv_main g root g.size j (by omega)
  constructor
  · intro j
    rw [backprop_master g root zeroGrad hrw hacc hroot j]
    by_cases hj : reaches g root j = true
    · rw [if_pos hj]
      exact (hmain j).2
    · rw [if_neg hj, (hmain j).1 (reaches_eq_false g hj)]
      rfl
  · rw [← (hmain root).2, adjGrad_root]

/-- Witness for C1 on the fan-in graph `out = (x*y1) + (x*y2)`: its rules are
builder-shaped, all reachable rules accumulate, and the theorem applies. -/
theorem C1_witness :
    ruleWF fanG ∧ accReach fanG 5 ∧ 5 < fanG.size ∧
    ((∀ j, backprop fanG 5 zeroGrad j = totalDeriv fanG 5 j) ∧
      totalDeriv fanG 5 5 = 1) :=
  ⟨by decide, by decide, by decide,
    C1_backprop_is_total_derivative fanG 5 (by decide) (by decide) (by decide)⟩

/-!
## Repeating the backward pass without zeroing (C2)
-/

/-- `out = (x*y) * c` with x=3, y=4, c=2: a two-level chain on which the
doubling folklore fails below the first level. -/
def deepNodes : List Node :=
  [⟨3, some "x", [], none, .noneR⟩,
   ⟨4, some "y", [], none, .noneR⟩,
   ⟨12, some "z", [0, 1], some .mul, .mulR 0 1 2⟩,
   ⟨2, some "c", [], none, .noneR⟩,
   ⟨24, none, [2, 3], some .mul, .mulR 2 3 4⟩]

def deepG : Graph := Graph.ofList deepNodes (by decide)

/-- C2, counterexample.  On `out = (x*y)*c`, the first backward pass leaves
grad(x) = 8, but a second backward pass without zeroing leaves grad(x) = 24,
not the predicted 2 * 8 = 16: node z's already-doubled accumulator (4) is
pushed down again, tripling x's total.  So the second pass does not double
every reachable node's accumulator. -/
theorem C2_counterexample :
    reaches deepG 4 0 = true ∧
    backprop deepG 4 zeroGrad 0 = 8 ∧
    backprop deepG 4 (backprop deepG 4 zeroGrad) 0 = 24 ∧
    (24 : Real) ≠ 2 * 8 := by
  have ht : topoList deepG 4 = [0, 1, 2, 3, 4] := by decide
  have h10 : backprop deepG 4 zeroGrad 0 = 8 := by
    rw [backprop, ht]
    simp [applyRule, deepG, Graph.node, deepNodes, Graph.ofList, zeroGrad, Function.update]
    norm_num
  have h12 : backprop deepG 4 zeroGrad 2 = 2 := by
    rw [backprop, ht]
    simp [applyRule, deepG, Graph.node, deepNodes, Graph.ofList, zeroGrad, Function.update]
  refine ⟨by decide, h10, ?_, by norm_num⟩
  show ((topoList deepG 4).reverse.foldl (applyRule deepG)
    (Function.update (backprop deepG 4 zeroGrad) 4 1)) 0 = 24
  rw [ht]
  simp only [List.reverse_cons, List.reverse_nil, List.nil_append, List.cons_append,
    List.foldl_cons, List.foldl_nil]
  simp [applyRule, deepG, Graph.node, deepNodes, Graph.ofList, Function.update_apply,
    h10, h12]
  show backprop deepG 4 zeroGrad 0 + 4 * (backprop deepG 4 zeroGrad 2 + 2) = 24
  rw [h10, h12]
  norm_num

/-- C2, amended.  Repeating the backward pass without zeroing does not double
every reachable accumulator.  What does hold (for accumulating rules): the
root's accumulator is simply re-set to 1 by the second call, and a node whose
only reachable parent is the root itself — i.e. a node all of whose
root-to-node paths are single edges — has its accumulator exactly doubled.
Deeper nodes can receive more than double (see the counterexample). -/
theorem C2_second_backprop (g : Graph) (root : Nat) (hrw : ruleWF g)
    (hacc : accReach g root) (hroot : root < g.size) :
    backprop g root (backprop g root zeroGrad) root = 1 ∧
    ∀ j ∈ (g.node root).children,
      (∀ p ≤ root, reaches g root p = true → j ∈ (g.node p).children → p = root) →
      backprop g root (backprop g root zeroGrad) j
        = 2 * backprop g root zeroGrad j := by
  constructor
  · rw [backprop_master g root _ hrw hacc hroot root, if_pos (reaches_self g root),
      adjGrad_root]
  · intro j hj honly
    have hjr : reaches g root j = true := reaches_of_child g hj
    have hjlt : j < root := g.children_lt hj
    have hjne : j ≠ root := by omega
    have hkey : ∀ h2 : Nat → Real,
        adjGrad g root h2 j = (if j = root then 1 else h2 j) + slot g root j := by
      intro h2
      rw [adjGrad_rec]
      congr 1
      rw [← List.sum_toFinset _ (parentsList_nodup g j)]
      have hrootmem : root ∈ (parentsList g j).toFinset := by
        rw [List.mem_toFinset]
        exact (parentsList_mem g j root).2 ⟨hroot, hj⟩
      rw [Finset.sum_eq_single root]
      · rw [if_pos (reaches_self g root), adjGrad_root]
        ring
      · intro b hb hbne
        have hbp := (parentsList_mem g j b).1 (List.mem_toFinset.1 hb)
        cases hbr : reaches g root b
        · rfl
        · exact absurd (honly b (reaches_le g root b hbr) hbr hbp.2) hbne
      · intro hnr
        exact absurd hrootmem hnr
    have hs1 : backprop g root zeroGrad j = slot g root j := by
      rw [backprop_master g root _ hrw hacc hroot j, if_pos hjr, hkey zeroGrad,
        if_neg hjne]
      show zeroGrad j + slot g root j = slot g root j
      rw [zeroGrad]
      ring
    rw [backprop_master g root _ hrw hacc hroot j, if_pos hjr, hkey _, if_neg hjne,
      hs1]
    ring

/-- Witness for the amended C2 on `z = x * y`: leaf x's only reachable parent
is the root z, so its accumulator is doubled by the second pass. -/
theorem C2_witness :
    ruleWF chainG ∧ accReach chainG 2 ∧ 2 < chainG.size ∧
    0 ∈ (chainG.node 2).children ∧
    (∀ p ≤ 2, reaches chainG 2 p = true → 0 ∈ (chainG.node p).children → p = 2) ∧
    backprop chainG 2 (backprop chainG 2 zeroGrad) 0
      = 2 * backprop chainG 2 zeroGrad 0 := by
  refine ⟨by decide, by decide, by decide, by decide, by decide, ?_⟩
  exact (C2_second_backprop chainG 2 (by decide) (by decide) (by decide)).2 0
    (by decide) (by decide)
